import Mathlib

/-!
# GoFrontEnd chat relay: `src/main.go`

A shallow embedding of the relay's connection registry, broadcast pipeline
(`handleMessages`, `sendToAll`), connection handler (`handleConnections`,
`sendPrevMsgs`) and start-up (`main`), with the properties of the specification
stated and proved over it.

* A Go `string` / `[]byte` is a list of bytes (`List Nat`, each below 256).
* A `*websocket.Conn` is identified by a natural number; the map `clients` is
  the list of its keys, without duplicates.
* The package-level variables `clients`, `broadcast` and the Redis list stored
  under `REDIS_KEY` are the fields of `State`; every I/O effect is also recorded,
  in program order, in `State.trace`.
* Outcomes of external calls (spell-checker RPC, `RPush`, the `LRange` reply
  status, websocket upgrade / read / write, and in the pipeline `json.Marshal`)
  are inputs of the functions, so that theorems quantify over every outcome.
* `log.Fatal` is the result `Exit.fatal`: the process terminates.
* The content of an `LRANGE` reply follows the Redis command (negative indices
  count from the end, out-of-range indices are clamped).
* `json.Marshal` and `json.Unmarshal` on a `Message` follow the Go standard
  library (`encodeState.string` with HTML escaping, the scanner, `unquoteBytes`,
  the struct case of `decodeState.object`), over `utf8.DecodeRune` and
  `utf8.EncodeRune`; loops over a byte slice carry a fuel equal to its length.
-/

namespace GoFrontEnd

/-- A Go string: a sequence of bytes. -/
abbrev GoString := List Nat

/-- Identity of a `*websocket.Conn`. -/
abbrev Conn := Nat

/-- The `Message` struct of `main.go`. -/
structure Message where
  Email : GoString
  Username : GoString
  Message : GoString
deriving DecidableEq, Repr

/-- Argument of a `WriteJSON` call: one `Message` (fan-out) or a `[]Message` (catch-up). -/
inductive Payload where
  | msg (m : Message)
  | msgs (ms : List Message)
deriving DecidableEq, Repr

/-- Observable effects, recorded in program order. -/
inductive Event where
  | recv (m : Message)
  | rpush (entry : GoString) (ok : Bool)
  | write (c : Conn) (p : Payload) (ok : Bool)
  | close (c : Conn)
deriving DecidableEq, Repr

/-- The shared state of the relay. -/
structure State where
  clients : List Conn
  history : List GoString
  broadcast : List Message
  trace : List Event
deriving DecidableEq, Repr

/-- How a goroutine (or the process) stands after the modelled code ran. -/
inductive Exit where
  | fatal
  | returned
  | blocked
deriving DecidableEq, Repr

/-- Record one effect. -/
def State.emit (st : State) (e : Event) : State :=
  { st with trace := st.trace ++ [e] }

/-- Map insertion `clients[ws] = true`. -/
def register (ws : Conn) (st : State) : State :=
  { st with clients := if ws ∈ st.clients then st.clients else st.clients ++ [ws] }

/-- Map deletion `delete(clients, c)`. -/
def unregister (c : Conn) (st : State) : State :=
  { st with clients := st.clients.filter (fun d => d != c) }

/-- Connection close `c.Close()`. -/
def closeConn (c : Conn) (st : State) : State :=
  st.emit (.close c)

/-- Redis `RPUSH REDIS_KEY entry`; the reply is discarded by the caller. -/
def rpush (entry : GoString) (ok : Bool) (st : State) : State :=
  { st with history := if ok then st.history ++ [entry] else st.history,
            trace := st.trace ++ [.rpush entry ok] }

/-- Redis `LRANGE` on a list, with Redis's treatment of negative and
out-of-range indices. -/
def lrange {α : Type} (l : List α) (start stop : Int) : List α :=
  let llen : Int := l.length
  let start1 := if start < 0 then llen + start else start
  let stop1 := if stop < 0 then llen + stop else stop
  let start2 := if start1 < 0 then 0 else start1
  if start2 > stop1 ∨ start2 ≥ llen then []
  else
    let stop2 := if stop1 ≥ llen then llen - 1 else stop1
    (l.drop start2.toNat).take (stop2 - start2 + 1).toNat

/-- Outcomes of the external calls made during one iteration of `handleMessages`. -/
structure StepEnv where
  check : Except String GoString
  pushOk : Bool
  writeOk : Conn → Bool

/-- The `for client := range clients` loop of `sendToAll`, over the keys present
when the loop starts. -/
def sendToAllLoop (writeOk : Conn → Bool) (msg : Message) : List Conn → State → State
  | [], st => st
  | client :: rest, st =>
    let st1 := st.emit (.write client (.msg msg) (writeOk client))
    if writeOk client then sendToAllLoop writeOk msg rest st1
    else sendToAllLoop writeOk msg rest (unregister client (closeConn client st1))

/-- The function `sendToAll`. -/
def sendToAll (marshal : Message → Except String GoString) (env : StepEnv)
    (msg : Message) (st : State) : State :=
  let st1 := match marshal msg with
    | .ok jsonMsg => rpush jsonMsg env.pushOk st
    | .error _ => st
  sendToAllLoop env.writeOk msg st1.clients st1

/-- The message `handleMessages` hands to `sendToAll`. -/
def enrich (check : Except String GoString) (msg : Message) : Message :=
  match check with
  | .error _ => msg
  | .ok sentence => { msg with Message := sentence }

/-- Body of the `handleMessages` loop after `msg := <-broadcast`. -/
def handleMessagesBody (marshal : Message → Except String GoString) (env : StepEnv)
    (msg : Message) (st : State) : State :=
  match env.check with
  | .error _ => sendToAll marshal env msg st
  | .ok sentence => sendToAll marshal env { msg with Message := sentence } st

/-- One iteration of `handleMessages`: receive, then the body. With an empty
channel the goroutine stays blocked. -/
def handleMessagesStep (marshal : Message → Except String GoString) (env : StepEnv)
    (st : State) : State :=
  match st.broadcast with
  | [] => st
  | msg :: rest =>
    handleMessagesBody marshal env msg ({ st with broadcast := rest }.emit (.recv msg))

/-- Several iterations of `handleMessages`, one per given `StepEnv`. -/
def handleMessages (marshal : Message → Except String GoString) :
    List StepEnv → State → State
  | [], st => st
  | env :: envs, st => handleMessages marshal envs (handleMessagesStep marshal env st)

/-- The function `sendPrevMsgs`. -/
def sendPrevMsgs (ok : Bool) (client : Conn) (msg : List Message) (st : State) : State :=
  let st1 := st.emit (.write client (.msgs msg) ok)
  if ok then st1 else unregister client (closeConn client st1)

/-- The decoding loop of `handleConnections`; an error is the `log.Fatal` branch. -/
def parseMsgs (unmarshal : GoString → Except String Message) :
    List GoString → Except String (List Message)
  | [] => .ok []
  | msg :: rest =>
    match unmarshal msg with
    | .error e => .error e
    | .ok parsedMsg =>
      match parseMsgs unmarshal rest with
      | .error e => .error e
      | .ok parsedMsgs => .ok (parsedMsg :: parsedMsgs)

/-- The read loop of `handleConnections`, fed with the outcomes of successive
`ReadJSON` calls. -/
def readLoop (ws : Conn) : List (Except String Message) → State → Exit × State
  | [], st => (.blocked, st)
  | .error _ :: _, st => (.returned, closeConn ws (unregister ws st))
  | .ok msg :: rest, st => readLoop ws rest { st with broadcast := st.broadcast ++ [msg] }

/-- Outcomes of the external calls made by one run of `handleConnections`. -/
structure ConnEnv where
  upgrade : Except String Conn
  lrangeOk : Bool
  catchupOk : Bool
  reads : List (Except String Message)

/-- The function `handleConnections`. -/
def handleConnections (unmarshal : GoString → Except String Message) (env : ConnEnv)
    (st : State) : Exit × State :=
  match env.upgrade with
  | .error _ => (.fatal, st)
  | .ok ws =>
    let st1 := register ws st
    if env.lrangeOk then
      match parseMsgs unmarshal (lrange st1.history (-50) (-1)) with
      | .error _ => (.fatal, st1)
      | .ok parsedMsgs => readLoop ws env.reads (sendPrevMsgs env.catchupOk ws parsedMsgs st1)
    else readLoop ws env.reads st1

/-- The function `connectToSpellChecker`: `log.Fatalf` when `grpc.Dial` fails. -/
def connectToSpellChecker (dial : Except String Unit) : Exit :=
  match dial with
  | .error _ => .fatal
  | .ok _ => .returned

/-- The function `connectToRedis`: `log.Fatalf` when the `Ping` fails. -/
def connectToRedis (ping : Except String GoString) : Exit :=
  match ping with
  | .error _ => .fatal
  | .ok _ => .returned

/-- The function `main` up to and including `http.ListenAndServe`, which blocks
while serving (`none`) or returns an error (`some _`), and then `log.Fatal`. -/
def main (dial : Except String Unit) (ping : Except String GoString)
    (listen : Option String) : Exit :=
  match connectToSpellChecker dial with
  | .fatal => .fatal
  | _ =>
    match connectToRedis ping with
    | .fatal => .fatal
    | _ =>
      match listen with
      | some _ => .fatal
      | none => .blocked

/-- Payloads successfully written to connection `c`, in order. -/
def delivered (c : Conn) : List Event → List Payload
  | [] => []
  | .write d p true :: rest => if d = c then p :: delivered c rest else delivered c rest
  | _ :: rest => delivered c rest

/-- Payloads of all `WriteJSON` calls made on connection `c`, in order. -/
def attempted (c : Conn) : List Event → List Payload
  | [] => []
  | .write d p _ :: rest => if d = c then p :: attempted c rest else attempted c rest
  | _ :: rest => attempted c rest

/-- Events of one fan-out pass over `cs`. -/
def fanoutEvents (writeOk : Conn → Bool) (msg : Message) : List Conn → List Event
  | [] => []
  | c :: cs =>
    if writeOk c then .write c (.msg msg) true :: fanoutEvents writeOk msg cs
    else .write c (.msg msg) false :: .close c :: fanoutEvents writeOk msg cs

/-! ## `encoding/json` and `unicode/utf8`, as used through `json.Marshal(msg)` and
`json.Unmarshal([]byte(msg), &parsedMsg)` -/

/-- The rune `utf8.RuneError` (U+FFFD). -/
def RuneError : Nat := 0xFFFD

/-- The `first` table of `unicode/utf8` for a non-ASCII lead byte: the sequence
length and the accepted range of the second byte; `none` for an invalid lead. -/
def first (b : Nat) : Option (Nat × Nat × Nat) :=
  if 0xC2 ≤ b ∧ b ≤ 0xDF then some (2, 0x80, 0xBF)
  else if b = 0xE0 then some (3, 0xA0, 0xBF)
  else if (0xE1 ≤ b ∧ b ≤ 0xEC) ∨ b = 0xEE ∨ b = 0xEF then some (3, 0x80, 0xBF)
  else if b = 0xED then some (3, 0x80, 0x9F)
  else if b = 0xF0 then some (4, 0x90, 0xBF)
  else if 0xF1 ≤ b ∧ b ≤ 0xF3 then some (4, 0x80, 0xBF)
  else if b = 0xF4 then some (4, 0x80, 0x8F)
  else none

/-- The function `utf8.DecodeRune`: the rune at the head of `s` and its width;
`(RuneError, 1)` for an invalid encoding, `(RuneError, 0)` for empty input. -/
def DecodeRune : GoString → Nat × Nat
  | [] => (RuneError, 0)
  | s0 :: rest =>
    if s0 < 0x80 then (s0, 1)
    else
      match first s0 with
      | none => (RuneError, 1)
      | some (sz, lo, hi) =>
        match rest with
        | [] => (RuneError, 1)
        | s1 :: rest1 =>
          if s1 < lo ∨ hi < s1 then (RuneError, 1)
          else if sz ≤ 2 then ((s0 % 32) * 64 + s1 % 64, 2)
          else
            match rest1 with
            | [] => (RuneError, 1)
            | s2 :: rest2 =>
              if s2 < 0x80 ∨ 0xBF < s2 then (RuneError, 1)
              else if sz ≤ 3 then ((s0 % 16) * 4096 + (s1 % 64) * 64 + s2 % 64, 3)
              else
                match rest2 with
                | [] => (RuneError, 1)
                | s3 :: _ =>
                  if s3 < 0x80 ∨ 0xBF < s3 then (RuneError, 1)
                  else ((s0 % 8) * 262144 + (s1 % 64) * 4096 + (s2 % 64) * 64 + s3 % 64, 4)

/-- The function `utf8.EncodeRune`. -/
def EncodeRune (r : Nat) : GoString :=
  if r ≤ 0x7F then [r]
  else if r ≤ 0x7FF then [0xC0 + r / 64, 0x80 + r % 64]
  else if r > 0x10FFFF ∨ (0xD800 ≤ r ∧ r ≤ 0xDFFF) then [0xEF, 0xBF, 0xBD]
  else if r ≤ 0xFFFF then [0xE0 + r / 4096, 0x80 + (r / 64) % 64, 0x80 + r % 64]
  else [0xF0 + r / 262144, 0x80 + (r / 4096) % 64, 0x80 + (r / 64) % 64, 0x80 + r % 64]

/-- The function `utf8.Valid`, by repeated `DecodeRune`. -/
def validUTF8 : Nat → GoString → Bool
  | _, [] => true
  | 0, _ :: _ => false
  | fuel + 1, b :: rest =>
    if b < 0x80 then validUTF8 fuel rest
    else
      let d := DecodeRune (b :: rest)
      if d.1 = RuneError ∧ d.2 = 1 then false
      else validUTF8 fuel ((b :: rest).drop d.2)

/-- A Go string that is well-formed UTF-8 text. -/
def ValidString (s : GoString) : Prop := validUTF8 s.length s = true

instance (s : GoString) : Decidable (ValidString s) := by
  unfold ValidString; infer_instance

/-- The table `htmlSafeSet` of `encoding/json`: ASCII bytes written verbatim. -/
def htmlSafe (b : Nat) : Bool :=
  decide (0x20 ≤ b ∧ b < 0x80 ∧ b ≠ 0x22 ∧ b ≠ 0x26 ∧ b ≠ 0x3C ∧ b ≠ 0x3E ∧ b ≠ 0x5C)

/-- The table `hex` of `encoding/json`: the digit from "0123456789abcdef". -/
def hex (n : Nat) : Nat := if n < 10 then 48 + n else 87 + n

/-- What `encodeState.string` (with `escapeHTML`) writes for one ASCII byte. -/
def encodeByte (b : Nat) : GoString :=
  if htmlSafe b then [b]
  else if b = 0x5C ∨ b = 0x22 then [0x5C, b]
  else if b = 0x0A then [0x5C, 0x6E]
  else if b = 0x0D then [0x5C, 0x72]
  else if b = 0x09 then [0x5C, 0x74]
  else [0x5C, 0x75, 0x30, 0x30, hex (b / 16), hex (b % 16)]

/-- One iteration of the loop of `encodeState.string` at the input `b :: rest`:
the bytes written for the rune at its head and the input after that rune. -/
def encodeStep (b : Nat) (rest : GoString) : GoString × GoString :=
  if b < 0x80 then (encodeByte b, rest)
  else
    let d := DecodeRune (b :: rest)
    if d.1 = RuneError ∧ d.2 = 1 then ([0x5C, 0x75, 0x66, 0x66, 0x66, 0x64], rest)
    else if d.1 = 0x2028 ∨ d.1 = 0x2029 then
      ([0x5C, 0x75, 0x32, 0x30, 0x32, hex (d.1 % 16)], (b :: rest).drop d.2)
    else ((b :: rest).take d.2, (b :: rest).drop d.2)

/-- The loop of `encodeState.string`: the text between the two quotes. -/
def encodeStringLoop : Nat → GoString → GoString
  | _, [] => []
  | 0, _ :: _ => []
  | fuel + 1, b :: rest =>
    (encodeStep b rest).1 ++ encodeStringLoop fuel (encodeStep b rest).2

/-- The method `encodeState.string`: a quoted JSON string. -/
def encodeString (s : GoString) : GoString :=
  0x22 :: (encodeStringLoop s.length s ++ [0x22])

/-- The JSON key of `Message.Email`. -/
def keyEmail : GoString := [0x65, 0x6D, 0x61, 0x69, 0x6C]

/-- The JSON key of `Message.Username`. -/
def keyUsername : GoString := [0x75, 0x73, 0x65, 0x72, 0x6E, 0x61, 0x6D, 0x65]

/-- The JSON key of `Message.Message`. -/
def keyMessage : GoString := [0x6D, 0x65, 0x73, 0x73, 0x61, 0x67, 0x65]

/-- The bytes `json.Marshal` produces for a `Message`. -/
def encodeMessage (m : Message) : GoString :=
  [0x7B, 0x22] ++ keyEmail ++ [0x22, 0x3A] ++ encodeString m.Email
    ++ [0x2C, 0x22] ++ keyUsername ++ [0x22, 0x3A] ++ encodeString m.Username
    ++ [0x2C, 0x22] ++ keyMessage ++ [0x22, 0x3A] ++ encodeString m.Message ++ [0x7D]

/-- The call `json.Marshal(msg)` for a `Message`; it has no failing case. -/
def jsonMarshal (m : Message) : Except String GoString := .ok (encodeMessage m)

/-- A parsed JSON value; numbers are validated but their value is not kept. -/
inductive Json where
  | null
  | bool (b : Bool)
  | num
  | str (s : GoString)
  | arr (xs : List Json)
  | obj (kvs : List (GoString × Json))

/-- JSON white space. -/
def isSpace (c : Nat) : Bool := decide (c = 0x20 ∨ c = 0x09 ∨ c = 0x0D ∨ c = 0x0A)

/-- Drop leading white space. -/
def skipSpace : GoString → GoString
  | [] => []
  | c :: rest => if isSpace c then skipSpace rest else c :: rest

/-- A decimal digit. -/
def isDigit (c : Nat) : Bool := decide (0x30 ≤ c ∧ c ≤ 0x39)

/-- A hexadecimal digit. -/
def isHex (c : Nat) : Bool :=
  decide ((0x30 ≤ c ∧ c ≤ 0x39) ∨ (0x61 ≤ c ∧ c ≤ 0x66) ∨ (0x41 ≤ c ∧ c ≤ 0x46))

/-- Value of a hexadecimal digit. -/
def hexVal (c : Nat) : Nat :=
  if c ≤ 0x39 then c - 0x30 else if 0x61 ≤ c then c - 0x61 + 10 else c - 0x41 + 10

/-- The scanner states inside a string literal: `stateInString`,
`stateInStringEsc`, `stateInStringEscU`, `stateInStringEscU1`,
`stateInStringEscU12`, `stateInStringEscU123`. -/
inductive StrState where
  | inString
  | esc
  | escU
  | escU1
  | escU12
  | escU123
deriving DecidableEq, Repr

/-- Put an accepted byte in front of the literal text scanned after it. -/
def consLit (c : Nat) : Option (GoString × GoString) → Option (GoString × GoString)
  | none => none
  | some (lit, r) => some (c :: lit, r)

/-- The scanner inside a string literal, byte by byte from the given state:
the raw text up to the closing quote and the input after it; `none` is a
syntax error. -/
def scanStringFrom : StrState → GoString → Option (GoString × GoString)
  | _, [] => none
  | .inString, c :: rest =>
    if c = 0x22 then some ([], rest)
    else if c = 0x5C then consLit c (scanStringFrom .esc rest)
    else if c < 0x20 then none
    else consLit c (scanStringFrom .inString rest)
  | .esc, c :: rest =>
    if c = 0x62 ∨ c = 0x66 ∨ c = 0x6E ∨ c = 0x72 ∨ c = 0x74 ∨ c = 0x5C ∨ c = 0x2F
        ∨ c = 0x22 then consLit c (scanStringFrom .inString rest)
    else if c = 0x75 then consLit c (scanStringFrom .escU rest)
    else none
  | .escU, c :: rest => if isHex c then consLit c (scanStringFrom .escU1 rest) else none
  | .escU1, c :: rest => if isHex c then consLit c (scanStringFrom .escU12 rest) else none
  | .escU12, c :: rest => if isHex c then consLit c (scanStringFrom .escU123 rest) else none
  | .escU123, c :: rest => if isHex c then consLit c (scanStringFrom .inString rest) else none

/-- The scanner from just after the opening quote of a string literal. -/
def scanString (s : GoString) : Option (GoString × GoString) :=
  scanStringFrom .inString s

/-- The function `getu4`: the rune of a leading `\uXXXX`, `none` for Go's `-1`. -/
def getu4 : GoString → Option Nat
  | b :: u :: h1 :: h2 :: h3 :: h4 :: _ =>
    if b = 0x5C ∧ u = 0x75 ∧ isHex h1 ∧ isHex h2 ∧ isHex h3 ∧ isHex h4 then
      some (hexVal h1 * 4096 + hexVal h2 * 256 + hexVal h3 * 16 + hexVal h4)
    else none
  | _ => none

/-- The function `utf16.IsSurrogate`. -/
def isSurrogate (r : Nat) : Bool := decide (0xD800 ≤ r ∧ r < 0xE000)

/-- The function `utf16.DecodeRune`, with `none` standing for a second rune of `-1`. -/
def utf16DecodeRune (r1 : Nat) (r2 : Option Nat) : Nat :=
  match r2 with
  | none => 0xFFFD
  | some r2 =>
    if 0xD800 ≤ r1 ∧ r1 < 0xDC00 ∧ 0xDC00 ≤ r2 ∧ r2 < 0xE000 then
      (r1 - 0xD800) * 1024 + (r2 - 0xDC00) + 0x10000
    else 0xFFFD

/-- One iteration of the first loop of `unquoteBytes` at the input `c :: rest`:
`none` at an escape, quote, control byte or invalid UTF-8 (the `break`),
otherwise the width of the rune skipped and the input after it. -/
def plainStep (c : Nat) (rest : GoString) : Option (Nat × GoString) :=
  if c = 0x5C ∨ c = 0x22 ∨ c < 0x20 then none
  else if c < 0x80 then some (1, rest)
  else
    let d := DecodeRune (c :: rest)
    if d.1 = RuneError ∧ d.2 = 1 then none
    else some (d.2, (c :: rest).drop d.2)

/-- The first loop of `unquoteBytes`: the index `r` at which it stops. -/
def plainRun : Nat → GoString → Nat
  | _, [] => 0
  | 0, _ :: _ => 0
  | fuel + 1, c :: rest =>
    match plainStep c rest with
    | none => 0
    | some (k, rest1) => k + plainRun fuel rest1

/-- The single-character escapes of `unquoteBytes`: the byte written for the
character after the backslash (`"`, `\\`, `/`, `'` stand for themselves; `b`,
`f`, `n`, `r`, `t`), `none` for any other character. -/
def simpleEscape (e : Nat) : Option Nat :=
  if e = 0x22 ∨ e = 0x5C ∨ e = 0x2F ∨ e = 0x27 then some e
  else if e = 0x62 then some 0x08
  else if e = 0x66 then some 0x0C
  else if e = 0x6E then some 0x0A
  else if e = 0x72 then some 0x0D
  else if e = 0x74 then some 0x09
  else none

/-- The `\uXXXX` case of `unquoteBytes` at an input starting with the backslash:
a valid surrogate pair is consumed as one rune, a lone surrogate becomes U+FFFD. -/
def unquoteU (s : GoString) : Option (GoString × GoString) :=
  match getu4 s with
  | none => none
  | some rr =>
    let rest6 := s.drop 6
    if isSurrogate rr then
      let dec := utf16DecodeRune rr (getu4 rest6)
      if dec ≠ 0xFFFD then some (EncodeRune dec, rest6.drop 6)
      else some (EncodeRune 0xFFFD, rest6)
    else some (EncodeRune rr, rest6)

/-- One iteration of the second loop of `unquoteBytes` at the input `c :: rest`:
the bytes written and the input left; `none` is the return with `ok == false`. -/
def unquoteStep (c : Nat) (rest : GoString) : Option (GoString × GoString) :=
  if c = 0x5C then
    match rest with
    | [] => none
    | e :: rest1 =>
      if e = 0x75 then unquoteU (c :: rest)
      else
        match simpleEscape e with
        | none => none
        | some x => some ([x], rest1)
  else if c = 0x22 ∨ c < 0x20 then none
  else if c < 0x80 then some ([c], rest)
  else
    let d := DecodeRune (c :: rest)
    some (EncodeRune d.1, (c :: rest).drop d.2)

/-- The second loop of `unquoteBytes`: undo the escapes and coerce to
well-formed UTF-8. -/
def unquoteLoop : Nat → GoString → Option GoString
  | _, [] => some []
  | 0, _ :: _ => none
  | fuel + 1, c :: rest =>
    match unquoteStep c rest with
    | none => none
    | some (out, rest1) =>
      match unquoteLoop fuel rest1 with
      | none => none
      | some t => some (out ++ t)

/-- The function `unquoteBytes`, applied to the text between the quotes: the
text itself when the first loop reaches its end, otherwise the prefix skipped
by the first loop followed by what the second loop writes. -/
def unquote (s : GoString) : Option GoString :=
  let r := plainRun s.length s
  if r = s.length then some s
  else
    match unquoteLoop s.length (s.drop r) with
    | none => none
    | some t => some (s.take r ++ t)

/-- The rest of the input after the digits `[0-9]*`. -/
def skipDigits : GoString → GoString
  | [] => []
  | c :: rest => if isDigit c then skipDigits rest else c :: rest

/-- The number states of the scanner after the integer part: optional
fraction and exponent; the input after the number, `none` on a syntax error. -/
def scanFracExp (s : GoString) : Option GoString :=
  let afterFrac : Option GoString :=
    match s with
    | c :: d :: rest =>
      if c = 0x2E then (if isDigit d then some (skipDigits rest) else none) else some s
    | [c] => if c = 0x2E then none else some s
    | [] => some s
  match afterFrac with
  | none => none
  | some s1 =>
    match s1 with
    | e :: rest =>
      if e = 0x65 ∨ e = 0x45 then
        let rest1 :=
          match rest with
          | sg :: rest2 => if sg = 0x2B ∨ sg = 0x2D then rest2 else rest
          | [] => rest
        match rest1 with
        | d :: rest3 => if isDigit d then some (skipDigits rest3) else none
        | [] => none
      else some s1
    | [] => some s1

/-- The number states of the scanner: the input after a JSON number. -/
def scanNumber (s : GoString) : Option GoString :=
  let s1 :=
    match s with
    | c :: rest => if c = 0x2D then rest else s
    | [] => s
  match s1 with
  | [] => none
  | d :: rest =>
    if d = 0x30 then scanFracExp rest
    else if 0x31 ≤ d ∧ d ≤ 0x39 then scanFracExp (skipDigits rest)
    else none

/-- A key of an object: a string literal starting at the head of the input. -/
def parseKey (s : GoString) : Option (GoString × GoString) :=
  match s with
  | [] => none
  | c :: rest =>
    if c = 0x22 then
      match scanString rest with
      | none => none
      | some (lit, rest1) =>
        match unquote lit with
        | none => none
        | some key => some (key, rest1)
    else none

mutual
/-- One JSON value at the head of the input, and the input after it. -/
def parseValue : Nat → GoString → Option (Json × GoString)
  | 0, _ => none
  | fuel + 1, s =>
    match s with
    | [] => none
    | c :: rest =>
      if c = 0x22 then
        match parseKey s with
        | none => none
        | some (t, rest1) => some (.str t, rest1)
      else if c = 0x7B then
        match skipSpace rest with
        | [] => none
        | d :: rest1 =>
          if d = 0x7D then some (.obj [], rest1)
          else
            match parseMembers fuel (d :: rest1) with
            | none => none
            | some (kvs, rest2) => some (.obj kvs, rest2)
      else if c = 0x5B then
        match skipSpace rest with
        | [] => none
        | d :: rest1 =>
          if d = 0x5D then some (.arr [], rest1)
          else
            match parseElems fuel (d :: rest1) with
            | none => none
            | some (xs, rest2) => some (.arr xs, rest2)
      else if c = 0x2D ∨ isDigit c then
        match scanNumber s with
        | none => none
        | some rest1 => some (.num, rest1)
      else if s.take 4 = [0x74, 0x72, 0x75, 0x65] then some (.bool true, s.drop 4)
      else if s.take 5 = [0x66, 0x61, 0x6C, 0x73, 0x65] then some (.bool false, s.drop 5)
      else if s.take 4 = [0x6E, 0x75, 0x6C, 0x6C] then some (.null, s.drop 4)
      else none
/-- The members of an object from its first key to the closing brace. -/
def parseMembers : Nat → GoString → Option (List (GoString × Json) × GoString)
  | 0, _ => none
  | fuel + 1, s =>
    match parseKey s with
    | none => none
    | some (key, rest1) =>
      match skipSpace rest1 with
      | [] => none
      | c :: rest2 =>
        if c = 0x3A then
          match parseValue fuel (skipSpace rest2) with
          | none => none
          | some (v, rest3) =>
            match skipSpace rest3 with
            | [] => none
            | d :: rest4 =>
              if d = 0x2C then
                match parseMembers fuel (skipSpace rest4) with
                | none => none
                | some (kvs, rest5) => some ((key, v) :: kvs, rest5)
              else if d = 0x7D then some ([(key, v)], rest4)
              else none
        else none
/-- The elements of an array from its first element to the closing bracket. -/
def parseElems : Nat → GoString → Option (List Json × GoString)
  | 0, _ => none
  | fuel + 1, s =>
    match parseValue fuel s with
    | none => none
    | some (v, rest1) =>
      match skipSpace rest1 with
      | [] => none
      | d :: rest2 =>
        if d = 0x2C then
          match parseElems fuel (skipSpace rest2) with
          | none => none
          | some (xs, rest3) => some (v :: xs, rest3)
        else if d = 0x5D then some ([v], rest2)
        else none
end

/-- The function `simpleLetterEqualFold` of `encoding/json` (`caseMask` clears bit 5). -/
def simpleLetterEqualFold : GoString → GoString → Bool
  | [], [] => true
  | b :: s, c :: t =>
    decide (b - (b / 32 % 2) * 32 = c - (c / 32 % 2) * 32) && simpleLetterEqualFold s t
  | _, _ => false

/-- The function `equalFoldRight` of `encoding/json`: ASCII case folding where
the key may also spell `s` as U+017F and `k` as U+212A. -/
def equalFoldRight : GoString → GoString → Bool
  | [], t => t.isEmpty
  | _ :: _, [] => false
  | sb :: s, tb :: t =>
    if tb < 0x80 then
      if sb ≠ tb then
        let sbUpper := sb - (sb / 32 % 2) * 32
        if 0x41 ≤ sbUpper ∧ sbUpper ≤ 0x5A then
          if sbUpper ≠ tb - (tb / 32 % 2) * 32 then false else equalFoldRight s t
        else false
      else equalFoldRight s t
    else
      let d := DecodeRune (tb :: t)
      if sb = 0x73 ∨ sb = 0x53 then
        if d.1 ≠ 0x17F then false
        else if d.2 = 2 then (match t with | _ :: t1 => equalFoldRight s t1 | [] => false)
        else false
      else if sb = 0x6B ∨ sb = 0x4B then
        if d.1 ≠ 0x212A then false
        else if d.2 = 3 then (match t with | _ :: _ :: t2 => equalFoldRight s t2 | _ => false)
        else false
      else false

/-- The fields of `Message` in declaration order. -/
inductive Field where
  | email
  | username
  | message
deriving DecidableEq, Repr

/-- Field lookup of `decodeState.object`: an exact name match wins, otherwise
the first field whose name matches under its folding function. -/
def findField (key : GoString) : Option Field :=
  if key = keyEmail then some .email
  else if key = keyUsername then some .username
  else if key = keyMessage then some .message
  else if simpleLetterEqualFold keyEmail key then some .email
  else if equalFoldRight keyUsername key then some .username
  else if equalFoldRight keyMessage key then some .message
  else none

/-- Store a decoded string into a field of the `Message`. -/
def setField (m : Message) (f : Field) (s : GoString) : Message :=
  match f with
  | .email => { m with Email := s }
  | .username => { m with Username := s }
  | .message => { m with Message := s }

/-- The member loop of `decodeState.object` on a `Message`: a string sets the
field, `null` leaves it, any other value is an `UnmarshalTypeError`; members
with an unknown key are skipped. -/
def decodeMembers : List (GoString × Json) → Message → Except String Message
  | [], m => .ok m
  | (key, v) :: kvs, m =>
    match findField key with
    | none => decodeMembers kvs m
    | some f =>
      match v with
      | .str s => decodeMembers kvs (setField m f s)
      | .null => decodeMembers kvs m
      | _ =>
        match decodeMembers kvs m with
        | .error e => .error e
        | .ok _ => .error "json: cannot unmarshal value into Go struct field of type string"

/-- The call `json.Unmarshal(data, &parsedMsg)` on a zero `Message`: check the
whole input is one JSON value, then decode it. -/
def jsonUnmarshal (data : GoString) : Except String Message :=
  match parseValue (data.length + 1) (skipSpace data) with
  | none => .error "json: syntax error"
  | some (v, rest) =>
    if skipSpace rest ≠ [] then .error "json: invalid character after top-level value"
    else
      match v with
      | .null => .ok { Email := [], Username := [], Message := [] }
      | .obj kvs => decodeMembers kvs { Email := [], Username := [], Message := [] }
      | _ => .error "json: cannot unmarshal value into Go value of type main.Message"

/-- The ASCII bytes of a string literal. -/
def ascii (s : String) : GoString := s.data.map Char.toNat

/-- Equality of call results is decidable. -/
instance instDecidableEqExcept {ε α : Type} [DecidableEq ε] [DecidableEq α] :
    DecidableEq (Except ε α) := fun a b =>
  match a, b with
  | .ok x, .ok y =>
    if h : x = y then isTrue (by rw [h]) else isFalse (by intro e; cases e; exact h rfl)
  | .error x, .error y =>
    if h : x = y then isTrue (by rw [h]) else isFalse (by intro e; cases e; exact h rfl)
  | .ok _, .error _ => isFalse (by intro e; cases e)
  | .error _, .ok _ => isFalse (by intro e; cases e)

/-- The events of the `RPush` made by `sendToAll`, if it makes one. -/
def pushEvents (marshal : Message → Except String GoString) (pushOk : Bool)
    (msg : Message) : List Event :=
  match marshal msg with
  | .ok jsonMsg => [.rpush jsonMsg pushOk]
  | .error _ => []

/-- The entries `sendToAll` adds to the history list. -/
def pushed (marshal : Message → Except String GoString) (pushOk : Bool)
    (msg : Message) : List GoString :=
  match marshal msg with
  | .ok jsonMsg => if pushOk then [jsonMsg] else []
  | .error _ => []

/-- The events of a run of `handleMessages` over the queued messages `msgs`,
starting with registry `cl`: per message the receive, the append, the fan-out. -/
def runEvents (marshal : Message → Except String GoString) :
    List StepEnv → List Message → List Conn → List Event
  | env :: envs, msg :: msgs, cl =>
    [.recv msg] ++ pushEvents marshal env.pushOk (enrich env.check msg)
      ++ fanoutEvents env.writeOk (enrich env.check msg) cl
      ++ runEvents marshal envs msgs (cl.filter env.writeOk)
  | _, _, _ => []

/-- The entries a run of `handleMessages` adds to the history list. -/
def runPushed (marshal : Message → Except String GoString) :
    List StepEnv → List Message → List GoString
  | env :: envs, msg :: msgs =>
    pushed marshal env.pushOk (enrich env.check msg) ++ runPushed marshal envs msgs
  | _, _ => []

/-- The messages a run of `handleMessages` hands to `sendToAll`, in order. -/
def runSent : List StepEnv → List Message → List Message
  | env :: envs, msg :: msgs => enrich env.check msg :: runSent envs msgs
  | _, _ => []

/-! ## Concrete scenario data -/

/-- The submitted record of the three-client scenario. -/
def exMsg : Message :=
  { Email := ascii "a@x", Username := ascii "alice", Message := ascii "helo wrld" }

/-- The corrected record of the three-client scenario. -/
def exFixed : Message :=
  { Email := ascii "a@x", Username := ascii "alice", Message := ascii "hello world" }

/-- Clients A, B, C registered, empty history, A's message queued. -/
def exState : State :=
  { clients := [0, 1, 2], history := [], broadcast := [exMsg], trace := [] }

/-- The checker answers "hello world"; append and all writes succeed. -/
def exEnvOk : StepEnv :=
  { check := .ok (ascii "hello world"), pushOk := true, writeOk := fun _ => true }

/-- The checker is unreachable; append and all writes succeed. -/
def exEnvErr : StepEnv :=
  { check := .error "unavailable", pushOk := true, writeOk := fun _ => true }

/-- Everything external fails except the writes to the clients. -/
def exEnvDown : StepEnv :=
  { check := .error "unavailable", pushOk := false, writeOk := fun _ => true }

/-- The write to client B fails; everything else succeeds. -/
def exEnvBFails : StepEnv :=
  { check := .ok (ascii "hello world"), pushOk := true, writeOk := fun c => c != 1 }

/-- Two stored records and three registered clients. -/
def exStored : State :=
  { clients := [0, 1, 2], history := [encodeMessage exMsg, encodeMessage exFixed],
    broadcast := [], trace := [] }

/-- A history whose only entry is not JSON. -/
def exCorrupt : State :=
  { clients := [0, 1, 2], history := [ascii "oops"], broadcast := [], trace := [] }

/-- Three registered clients, empty history, nothing queued. -/
def exIdle : State :=
  { clients := [0, 1, 2], history := [], broadcast := [], trace := [] }

/-- A client whose upgrade, history read and catch-up write all succeed. -/
def exJoin : ConnEnv :=
  { upgrade := .ok 3, lrangeOk := true, catchupOk := true, reads := [] }

/-- A client joining while the history read fails, then sending one message. -/
def exJoinNoRead : ConnEnv :=
  { upgrade := .ok 3, lrangeOk := false, catchupOk := true, reads := [.ok exMsg] }

/-- A request whose websocket upgrade fails. -/
def exUpgradeFails : ConnEnv :=
  { upgrade := .error "websocket: bad handshake", lrangeOk := true, catchupOk := true,
    reads := [] }

/-- A record whose `Email` is the single byte 0xFF, which is not UTF-8. -/
def exBadMsg : Message :=
  { Email := [0xFF], Username := [], Message := [] }

/-- A record whose `Email` is the single byte 0xFE, which is not UTF-8. -/
def exBadMsg2 : Message :=
  { Email := [0xFE], Username := [], Message := [] }

/-- The record `exBadMsg` after a serialize / deserialize round trip: its `Email`
has become U+FFFD. -/
def exCoerced : Message :=
  { Email := [0xEF, 0xBF, 0xBD], Username := [], Message := [] }

/-- A record with an empty `Email`, a two-byte rune and a line separator in
`Username`, and quotes, a control byte, `<` and a four-byte rune in `Message`. -/
def exUnicode : Message :=
  { Email := [],
    Username := [0xC3, 0xA9, 0xE2, 0x80, 0xA8],
    Message := [0x22, 0x5C, 0x01, 0x3C, 0xF0, 0x9F, 0x98, 0x80] }

/-- Clients A, B, C registered, empty history, three different records queued. -/
def exQueued : State :=
  { clients := [0, 1, 2], history := [], broadcast := [exMsg, exUnicode, exCoerced],
    trace := [] }

/-! ## The fan-out loop and `sendToAll`: lemmas -/

/-! ## Effects on the trace -/

theorem delivered_append (c : Conn) (a b : List Event) :
    delivered c (a ++ b) = delivered c a ++ delivered c b := by
  induction a with
  | nil => rfl
  | cons e a ih =>
    cases e with
    | write d p ok =>
      cases ok <;> by_cases h : d = c <;> simp [delivered, h, ih]
    | _ => simpa [delivered] using ih

theorem attempted_append (c : Conn) (a b : List Event) :
    attempted c (a ++ b) = attempted c a ++ attempted c b := by
  induction a with
  | nil => rfl
  | cons e a ih =>
    cases e with
    | write d p ok =>
      by_cases h : d = c <;> simp [attempted, h, ih]
    | _ => simpa [attempted] using ih

theorem attempted_fanoutEvents (w : Conn → Bool) (m : Message) (c : Conn) (cs : List Conn) :
    attempted c (fanoutEvents w m cs) = List.replicate (cs.count c) (.msg m) := by
  induction cs with
  | nil => rfl
  | cons d cs ih =>
    by_cases hw : w d = true <;> by_cases h : d = c
    · subst h; simp [fanoutEvents, attempted, hw, ih, List.count_cons, List.replicate_succ]
    · simp [fanoutEvents, attempted, hw, h, ih, List.count_cons]
    · subst h; simp [fanoutEvents, attempted, hw, ih, List.count_cons, List.replicate_succ]
    · simp [fanoutEvents, attempted, hw, h, ih, List.count_cons]

theorem delivered_fanoutEvents (w : Conn → Bool) (m : Message) (c : Conn) (cs : List Conn) :
    delivered c (fanoutEvents w m cs)
      = if w c then List.replicate (cs.count c) (.msg m) else [] := by
  induction cs with
  | nil => simp [fanoutEvents, delivered]
  | cons d cs ih =>
    by_cases hw : w d = true <;> by_cases h : d = c
    · subst h; simp [fanoutEvents, delivered, hw, ih, List.count_cons, List.replicate_succ]
    · simp [fanoutEvents, delivered, hw, h, ih, List.count_cons]
    · subst h; simp [fanoutEvents, delivered, hw, ih, List.count_cons]
    · simp [fanoutEvents, delivered, hw, h, ih, List.count_cons]

/-! ## The fan-out loop -/

theorem sendToAllLoop_trace (w : Conn → Bool) (m : Message) (cs : List Conn) (st : State) :
    (sendToAllLoop w m cs st).trace = st.trace ++ fanoutEvents w m cs := by
  induction cs generalizing st with
  | nil => simp [sendToAllLoop, fanoutEvents]
  | cons c cs ih =>
    by_cases hw : w c = true
    · simp [sendToAllLoop, fanoutEvents, hw, ih, State.emit]
    · simp [sendToAllLoop, fanoutEvents, hw, ih, State.emit, unregister, closeConn]

theorem sendToAllLoop_history (w : Conn → Bool) (m : Message) (cs : List Conn) (st : State) :
    (sendToAllLoop w m cs st).history = st.history := by
  induction cs generalizing st with
  | nil => rfl
  | cons c cs ih =>
    by_cases hw : w c = true
    · simp [sendToAllLoop, hw, ih, State.emit]
    · simp [sendToAllLoop, hw, ih, State.emit, unregister, closeConn]

theorem sendToAllLoop_broadcast (w : Conn → Bool) (m : Message) (cs : List Conn) (st : State) :
    (sendToAllLoop w m cs st).broadcast = st.broadcast := by
  induction cs generalizing st with
  | nil => rfl
  | cons c cs ih =>
    by_cases hw : w c = true
    · simp [sendToAllLoop, hw, ih, State.emit]
    · simp [sendToAllLoop, hw, ih, State.emit, unregister, closeConn]

theorem sendToAllLoop_clients (w : Conn → Bool) (m : Message) (cs : List Conn) (st : State) :
    (sendToAllLoop w m cs st).clients
      = st.clients.filter (fun d => decide (d ∉ cs) || w d) := by
  induction cs generalizing st with
  | nil => simp [sendToAllLoop]
  | cons c cs ih =>
    by_cases hw : w c = true
    · simp only [sendToAllLoop, hw, if_true, ih, State.emit]
      apply List.filter_congr
      intro d _
      by_cases hd : d = c
      · subst hd; simp [hw]
      · simp [hd]
    · simp only [Bool.not_eq_true] at hw
      simp only [sendToAllLoop, hw, ih, State.emit, unregister, closeConn, List.filter_filter]
      simp only [Bool.false_eq_true, if_false, ih, List.filter_filter]
      apply List.filter_congr
      intro d _
      by_cases hd : d = c
      · subst hd; simp [hw]
      · simp [hd]

theorem sendToAllLoop_clients_self (w : Conn → Bool) (m : Message) (st : State)
    (cs : List Conn) (hcs : cs = st.clients) :
    (sendToAllLoop w m cs st).clients = st.clients.filter w := by
  subst hcs
  rw [sendToAllLoop_clients]
  apply List.filter_congr
  intro d hd
  simp [hd]

/-! ## `sendToAll` and the pipeline step -/

theorem sendToAll_trace (marshal : Message → Except String GoString) (env : StepEnv)
    (msg : Message) (st : State) :
    (sendToAll marshal env msg st).trace
      = st.trace ++ pushEvents marshal env.pushOk msg
          ++ fanoutEvents env.writeOk msg st.clients := by
  unfold sendToAll pushEvents
  cases h : marshal msg <;> simp [sendToAllLoop_trace, rpush]

theorem sendToAll_clients (marshal : Message → Except String GoString) (env : StepEnv)
    (msg : Message) (st : State) :
    (sendToAll marshal env msg st).clients = st.clients.filter env.writeOk := by
  unfold sendToAll
  cases h : marshal msg
  · exact sendToAllLoop_clients_self _ _ _ _ rfl
  · exact sendToAllLoop_clients_self _ _ _ _ rfl

theorem sendToAll_history (marshal : Message → Except String GoString) (env : StepEnv)
    (msg : Message) (st : State) :
    (sendToAll marshal env msg st).history
      = st.history ++ pushed marshal env.pushOk msg := by
  unfold sendToAll pushed
  cases h : marshal msg <;> cases hp : env.pushOk <;> simp [sendToAllLoop_history, rpush, hp]

theorem sendToAll_broadcast (marshal : Message → Except String GoString) (env : StepEnv)
    (msg : Message) (st : State) :
    (sendToAll marshal env msg st).broadcast = st.broadcast := by
  unfold sendToAll
  cases h : marshal msg <;> simp [sendToAllLoop_broadcast, rpush]

theorem handleMessagesBody_eq (marshal : Message → Except String GoString) (env : StepEnv)
    (msg : Message) (st : State) :
    handleMessagesBody marshal env msg st = sendToAll marshal env (enrich env.check msg) st := by
  unfold handleMessagesBody enrich
  cases env.check <;> rfl

theorem handleMessagesStep_cons (marshal : Message → Except String GoString) (env : StepEnv)
    (msg : Message) (rest : List Message) (st : State) (hq : st.broadcast = msg :: rest) :
    handleMessagesStep marshal env st
      = sendToAll marshal env (enrich env.check msg)
          ({ st with broadcast := rest }.emit (.recv msg)) := by
  unfold handleMessagesStep
  rw [hq]
  exact handleMessagesBody_eq marshal env msg _

theorem pushEvents_no_write (marshal : Message → Except String GoString) (ok : Bool)
    (m : Message) (c : Conn) :
    attempted c (pushEvents marshal ok m) = [] ∧ delivered c (pushEvents marshal ok m) = [] := by
  unfold pushEvents
  cases marshal m <;> simp [attempted, delivered]

theorem close_mem_fanoutEvents (w : Conn → Bool) (m : Message) (c : Conn) (cs : List Conn) :
    Event.close c ∈ fanoutEvents w m cs ↔ c ∈ cs ∧ w c = false := by
  induction cs with
  | nil => simp [fanoutEvents]
  | cons d cs ih =>
    by_cases hw : w d = true
    · simp only [fanoutEvents, hw, if_true, List.mem_cons, ih]
      constructor
      · rintro (h | h)
        · cases h
        · exact ⟨Or.inr h.1, h.2⟩
      · rintro ⟨h | h, h2⟩
        · subst h; rw [hw] at h2; cases h2
        · exact Or.inr ⟨h, h2⟩
    · simp only [Bool.not_eq_true] at hw
      simp only [fanoutEvents, hw, Bool.false_eq_true, if_false, List.mem_cons, ih]
      constructor
      · rintro (h | h | h)
        · cases h
        · cases h; exact ⟨Or.inl rfl, hw⟩
        · exact ⟨Or.inr h.1, h.2⟩
      · rintro ⟨h | h, h2⟩
        · subst h; exact Or.inr (Or.inl rfl)
        · exact Or.inr (Or.inr ⟨h, h2⟩)

theorem write_mem_fanoutEvents (w : Conn → Bool) (m : Message) (c : Conn) (cs : List Conn)
    (hc : c ∈ cs) : Event.write c (.msg m) (w c) ∈ fanoutEvents w m cs := by
  induction cs with
  | nil => cases hc
  | cons d cs ih =>
    by_cases hw : w d = true
    · rcases List.mem_cons.1 hc with h | h
      · subst h; simp [fanoutEvents, hw]
      · simp [fanoutEvents, hw, ih h]
    · simp only [Bool.not_eq_true] at hw
      rcases List.mem_cons.1 hc with h | h
      · subst h; simp [fanoutEvents, hw]
      · simp [fanoutEvents, hw, ih h]

theorem handleMessages_run (marshal : Message → Except String GoString) (envs : List StepEnv)
    (msgs rest : List Message) (st : State) (hq : st.broadcast = msgs ++ rest)
    (hlen : envs.length = msgs.length) :
    (handleMessages marshal envs st).trace = st.trace ++ runEvents marshal envs msgs st.clients
    ∧ (handleMessages marshal envs st).history = st.history ++ runPushed marshal envs msgs
    ∧ (handleMessages marshal envs st).broadcast = rest
    ∧ (handleMessages marshal envs st).clients
        = st.clients.filter (fun c => envs.all (fun env => env.writeOk c)) := by
  induction envs generalizing msgs st with
  | nil =>
    cases msgs with
    | nil => simpa [handleMessages, runEvents, runPushed] using hq
    | cons m ms => simp at hlen
  | cons env envs ih =>
    cases msgs with
    | nil => simp at hlen
    | cons m ms =>
      have hstep := handleMessagesStep_cons marshal env m (ms ++ rest) st (by simpa using hq)
      have hb : (handleMessagesStep marshal env st).broadcast = ms ++ rest := by
        rw [hstep, sendToAll_broadcast]; rfl
      obtain ⟨h1, h2, h3, h4⟩ := ih ms (handleMessagesStep marshal env st) hb (by simpa using hlen)
      have ht : (handleMessagesStep marshal env st).trace
          = st.trace ++ [.recv m] ++ pushEvents marshal env.pushOk (enrich env.check m)
              ++ fanoutEvents env.writeOk (enrich env.check m) st.clients := by
        rw [hstep, sendToAll_trace]; rfl
      have hh : (handleMessagesStep marshal env st).history
          = st.history ++ pushed marshal env.pushOk (enrich env.check m) := by
        rw [hstep, sendToAll_history]; rfl
      have hc : (handleMessagesStep marshal env st).clients = st.clients.filter env.writeOk := by
        rw [hstep, sendToAll_clients]; rfl
      refine ⟨?_, ?_, ?_, ?_⟩
      · simp only [handleMessages, h1, ht, hc, runEvents, List.append_assoc]
      · simp only [handleMessages, h2, hh, runPushed, List.append_assoc]
      · simpa [handleMessages] using h3
      · simp only [handleMessages, h4, hc, List.filter_filter, List.all_cons]
        apply List.filter_congr
        intro d _
        simp [Bool.and_comm]

theorem delivered_runEvents (marshal : Message → Except String GoString) (envs : List StepEnv)
    (msgs : List Message) (cl : List Conn) (c : Conn) (hlen : envs.length = msgs.length)
    (hnd : cl.Nodup) (hc : c ∈ cl) (hw : ∀ env ∈ envs, env.writeOk c = true) :
    delivered c (runEvents marshal envs msgs cl) = (runSent envs msgs).map Payload.msg := by
  induction envs generalizing msgs cl with
  | nil => cases msgs <;> simp [runEvents, runSent, delivered]
  | cons env envs ih =>
    cases msgs with
    | nil => simp at hlen
    | cons m ms =>
      have hwc : env.writeOk c = true := hw env (List.mem_cons_self _ _)
      have ih2 := ih ms (cl.filter env.writeOk) (by simpa using hlen) (hnd.filter _)
        (List.mem_filter.2 ⟨hc, hwc⟩) (fun e he => hw e (List.mem_cons_of_mem _ he))
      simp only [runEvents, runSent, delivered_append, ih2, (pushEvents_no_write _ _ _ _).2,
        delivered_fanoutEvents, hwc, if_true, List.count_eq_one_of_mem hnd hc, List.map_cons]
      simp [delivered]

theorem runPushed_all_ok (marshal : Message → Except String GoString)
    (enc : Message → GoString) (hm : ∀ m, marshal m = .ok (enc m)) (envs : List StepEnv)
    (msgs : List Message) (hp : ∀ env ∈ envs, env.pushOk = true) :
    runPushed marshal envs msgs = (runSent envs msgs).map enc := by
  induction envs generalizing msgs with
  | nil => cases msgs <;> simp [runPushed, runSent]
  | cons env envs ih =>
    cases msgs with
    | nil => simp [runPushed, runSent]
    | cons m ms =>
      have hpe : env.pushOk = true := hp env (List.mem_cons_self _ _)
      simp [runPushed, runSent, pushed, hm, hpe,
        ih ms (fun e he => hp e (List.mem_cons_of_mem _ he))]

theorem runPushed_sublist (marshal : Message → Except String GoString)
    (enc : Message → GoString) (hm : ∀ m, marshal m = .ok (enc m)) (envs : List StepEnv)
    (msgs : List Message) :
    (runPushed marshal envs msgs).Sublist ((runSent envs msgs).map enc) := by
  induction envs generalizing msgs with
  | nil => cases msgs <;> simp [runPushed, runSent]
  | cons env envs ih =>
    cases msgs with
    | nil => simp [runPushed, runSent]
    | cons m ms =>
      cases hpe : env.pushOk
      · simpa [runPushed, runSent, pushed, hm, hpe] using (ih ms).cons (enc (enrich env.check m))
      · simpa [runPushed, runSent, pushed, hm, hpe] using (ih ms).cons₂ (enc (enrich env.check m))

/-! ## The connection handler: lemmas -/

theorem lrange_last50 {α : Type} (l : List α) :
    lrange l (-50) (-1) = l.drop (l.length - 50) := by
  unfold lrange
  simp only []
  by_cases h0 : l.length = 0
  · have : l = [] := List.length_eq_zero.1 h0
    subst this
    simp
  · have hpos : (0 : Int) < (l.length : Int) := by omega
    have hstart : (if ((if (-50 : Int) < 0 then (l.length : Int) + -50 else -50) < 0) then (0 : Int)
        else (if (-50 : Int) < 0 then (l.length : Int) + -50 else -50))
          = ((l.length - 50 : Nat) : Int) := by
      split_ifs <;> omega
    have hstop : (if (-1 : Int) < 0 then (l.length : Int) + -1 else -1) = (l.length : Int) - 1 := by
      split_ifs <;> omega
    rw [hstart, hstop]
    have hc : ¬ ((((l.length - 50 : Nat) : Int) > (l.length : Int) - 1)
        ∨ (((l.length - 50 : Nat) : Int) ≥ (l.length : Int))) := by omega
    rw [if_neg hc]
    have hs2 : (if (l.length : Int) - 1 ≥ (l.length : Int) then (l.length : Int) - 1
        else (l.length : Int) - 1) = (l.length : Int) - 1 := by split_ifs <;> rfl
    rw [hs2]
    have ht : ((l.length : Int) - 1 - ((l.length - 50 : Nat) : Int) + 1).toNat
        = l.length - (l.length - 50) := by omega
    rw [ht, Int.toNat_ofNat]
    apply List.take_of_length_le
    simp

theorem parseMsgs_ok_iff (unmarshal : GoString → Except String Message) (l : List GoString)
    (ms : List Message) :
    parseMsgs unmarshal l = .ok ms ↔ l.map unmarshal = ms.map Except.ok := by
  induction l generalizing ms with
  | nil => cases ms <;> simp [parseMsgs]
  | cons x l ih =>
    cases hx : unmarshal x with
    | error e => cases ms <;> simp [parseMsgs, hx]
    | ok m =>
      cases hr : parseMsgs unmarshal l with
      | error e =>
        cases ms with
        | nil => simp [parseMsgs, hx, hr]
        | cons m2 ms2 =>
          have := (ih ms2).not.1 (by rw [hr]; simp)
          simp [parseMsgs, hx, hr, this]
      | ok ps =>
        have h1 := (ih ps).1 hr
        cases ms with
        | nil => simp [parseMsgs, hx, hr]
        | cons m2 ms2 =>
          simp only [parseMsgs, hx, hr, Except.ok.injEq, List.cons.injEq, List.map_cons, h1]
          constructor
          · rintro ⟨rfl, rfl⟩; exact ⟨rfl, rfl⟩
          · rintro ⟨rfl, h⟩
            refine ⟨rfl, ?_⟩
            exact List.map_injective_iff.2 (fun a b hab => by cases hab; rfl) h

theorem parseMsgs_error_iff (unmarshal : GoString → Except String Message) (l : List GoString) :
    (∃ e, parseMsgs unmarshal l = .error e) ↔ ∃ x ∈ l, ∃ e, unmarshal x = .error e := by
  induction l with
  | nil => simp [parseMsgs]
  | cons x l ih =>
    cases hx : unmarshal x with
    | error e => simp [parseMsgs, hx]
    | ok m =>
      cases hr : parseMsgs unmarshal l with
      | error e =>
        have := ih.1 (by rw [hr]; exact ⟨e, rfl⟩)
        simp [parseMsgs, hx, hr, this]
      | ok ps =>
        have : ¬ ∃ y ∈ l, ∃ e, unmarshal y = .error e := by
          intro h; obtain ⟨e, he⟩ := ih.2 h; rw [hr] at he; cases he
        simp only [parseMsgs, hx, hr, List.mem_cons, exists_eq_or_imp, false_or, exists_false]
        simp only [reduceCtorEq, exists_false, false_iff, false_or]
        exact this

theorem readLoop_exit (ws : Conn) (reads : List (Except String Message)) (st : State) :
    (readLoop ws reads st).1 ≠ .fatal := by
  induction reads generalizing st with
  | nil => simp [readLoop]
  | cons r reads ih => cases r <;> simp [readLoop, ih]

theorem readLoop_attempted (ws c : Conn) (reads : List (Except String Message)) (st : State) :
    attempted c (readLoop ws reads st).2.trace = attempted c st.trace := by
  induction reads generalizing st with
  | nil => simp [readLoop]
  | cons r reads ih =>
    cases r with
    | error e => simp [readLoop, closeConn, unregister, State.emit, attempted_append, attempted]
    | ok m => simp [readLoop, ih]

theorem readLoop_delivered (ws c : Conn) (reads : List (Except String Message)) (st : State) :
    delivered c (readLoop ws reads st).2.trace = delivered c st.trace := by
  induction reads generalizing st with
  | nil => simp [readLoop]
  | cons r reads ih =>
    cases r with
    | error e => simp [readLoop, closeConn, unregister, State.emit, delivered_append, delivered]
    | ok m => simp [readLoop, ih]

theorem readLoop_history (ws : Conn) (reads : List (Except String Message)) (st : State) :
    (readLoop ws reads st).2.history = st.history := by
  induction reads generalizing st with
  | nil => simp [readLoop]
  | cons r reads ih =>
    cases r with
    | error e => simp [readLoop, closeConn, unregister, State.emit]
    | ok m => simp [readLoop, ih]

theorem readLoop_others (ws c : Conn) (hc : c ≠ ws) (reads : List (Except String Message))
    (st : State) :
    (c ∈ (readLoop ws reads st).2.clients ↔ c ∈ st.clients)
    ∧ (Event.close c ∈ (readLoop ws reads st).2.trace ↔ Event.close c ∈ st.trace) := by
  induction reads generalizing st with
  | nil => simp [readLoop]
  | cons r reads ih =>
    cases r with
    | error e => simp [readLoop, closeConn, unregister, State.emit, hc]
    | ok m => simpa [readLoop] using ih _

theorem readLoop_all_ok (ws : Conn) (msgs : List Message) (st : State) :
    readLoop ws (msgs.map Except.ok) st
      = (.blocked, { st with broadcast := st.broadcast ++ msgs }) := by
  induction msgs generalizing st with
  | nil => simp [readLoop]
  | cons m msgs ih => simp [readLoop, ih]

theorem readLoop_read_error (ws : Conn) (msgs : List Message) (e : String)
    (more : List (Except String Message)) (st : State) :
    readLoop ws (msgs.map Except.ok ++ .error e :: more) st
      = (.returned, closeConn ws (unregister ws { st with broadcast := st.broadcast ++ msgs })) := by
  induction msgs generalizing st with
  | nil => simp [readLoop]
  | cons m msgs ih => simp [readLoop, ih]

theorem sendPrevMsgs_others (ok : Bool) (ws c : Conn) (hc : c ≠ ws) (ms : List Message)
    (st : State) :
    (c ∈ (sendPrevMsgs ok ws ms st).clients ↔ c ∈ st.clients)
    ∧ (Event.close c ∈ (sendPrevMsgs ok ws ms st).trace ↔ Event.close c ∈ st.trace)
    ∧ attempted c (sendPrevMsgs ok ws ms st).trace = attempted c st.trace := by
  have hc2 : ¬ ws = c := fun h => hc h.symm
  cases ok <;>
    simp [sendPrevMsgs, closeConn, unregister, State.emit, hc, hc2, attempted_append, attempted]

theorem sendPrevMsgs_attempted (ok : Bool) (ws : Conn) (ms : List Message) (st : State) :
    attempted ws (sendPrevMsgs ok ws ms st).trace = attempted ws st.trace ++ [.msgs ms] := by
  cases ok <;>
    simp [sendPrevMsgs, closeConn, unregister, State.emit, attempted_append, attempted]

theorem register_others (ws c : Conn) (hc : c ≠ ws) (st : State) :
    (c ∈ (register ws st).clients ↔ c ∈ st.clients) := by
  unfold register
  by_cases h : ws ∈ st.clients <;> simp [h, hc]

/-! ## UTF-8 decoding and encoding: lemmas -/

theorem first_spec (b sz lo hi : Nat) (h : first b = some (sz, lo, hi)) :
    (sz = 2 ∧ 0xC2 ≤ b ∧ b ≤ 0xDF ∧ lo = 0x80 ∧ hi = 0xBF)
    ∨ (sz = 3 ∧ 0xE0 ≤ b ∧ b ≤ 0xEF ∧ 0x80 ≤ lo ∧ hi ≤ 0xBF
        ∧ (b = 0xE0 → 0xA0 ≤ lo) ∧ (b = 0xED → hi ≤ 0x9F))
    ∨ (sz = 4 ∧ 0xF0 ≤ b ∧ b ≤ 0xF4 ∧ 0x80 ≤ lo ∧ hi ≤ 0xBF
        ∧ (b = 0xF0 → 0x90 ≤ lo) ∧ (b = 0xF4 → hi ≤ 0x8F)) := by
  unfold first at h
  split_ifs at h <;> simp only [Option.some.injEq, Prod.mk.injEq, reduceCtorEq] at h <;>
    obtain ⟨rfl, rfl, rfl⟩ := h <;> omega

/-- Shape of a successful multi-byte decode. -/
theorem DecodeRune_inv (b : Nat) (rest : GoString) (hb : ¬ b < 0x80)
    (hv : ¬ ((DecodeRune (b :: rest)).1 = RuneError ∧ (DecodeRune (b :: rest)).2 = 1)) :
    (∃ s1 r1, rest = s1 :: r1 ∧ 0xC2 ≤ b ∧ b ≤ 0xDF ∧ 0x80 ≤ s1 ∧ s1 ≤ 0xBF
        ∧ DecodeRune (b :: rest) = ((b % 32) * 64 + s1 % 64, 2))
    ∨ (∃ s1 s2 r2, rest = s1 :: s2 :: r2 ∧ 0xE0 ≤ b ∧ b ≤ 0xEF
        ∧ (b = 0xE0 → 0xA0 ≤ s1) ∧ (b = 0xED → s1 ≤ 0x9F)
        ∧ 0x80 ≤ s1 ∧ s1 ≤ 0xBF ∧ 0x80 ≤ s2 ∧ s2 ≤ 0xBF
        ∧ DecodeRune (b :: rest) = ((b % 16) * 4096 + (s1 % 64) * 64 + s2 % 64, 3))
    ∨ (∃ s1 s2 s3 r3, rest = s1 :: s2 :: s3 :: r3 ∧ 0xF0 ≤ b ∧ b ≤ 0xF4
        ∧ (b = 0xF0 → 0x90 ≤ s1) ∧ (b = 0xF4 → s1 ≤ 0x8F)
        ∧ 0x80 ≤ s1 ∧ s1 ≤ 0xBF ∧ 0x80 ≤ s2 ∧ s2 ≤ 0xBF ∧ 0x80 ≤ s3 ∧ s3 ≤ 0xBF
        ∧ DecodeRune (b :: rest)
            = ((b % 8) * 262144 + (s1 % 64) * 4096 + (s2 % 64) * 64 + s3 % 64, 4)) := by
  cases hf : first b with
  | none =>
    exfalso; apply hv
    simp [DecodeRune, hb, hf]
  | some t =>
    obtain ⟨sz, lo, hi⟩ := t
    cases rest with
    | nil => exfalso; apply hv; simp [DecodeRune, hb, hf]
    | cons s1 r1 =>
      by_cases hr1 : s1 < lo ∨ hi < s1
      · exfalso; apply hv; simp [DecodeRune, hb, hf, hr1]
      · have hd1 : DecodeRune (b :: s1 :: r1)
            = if sz ≤ 2 then ((b % 32) * 64 + s1 % 64, 2)
              else
                match r1 with
                | [] => (RuneError, 1)
                | s2 :: rest2 =>
                  if s2 < 0x80 ∨ 0xBF < s2 then (RuneError, 1)
                  else if sz ≤ 3 then ((b % 16) * 4096 + (s1 % 64) * 64 + s2 % 64, 3)
                  else
                    match rest2 with
                    | [] => (RuneError, 1)
                    | s3 :: _ =>
                      if s3 < 0x80 ∨ 0xBF < s3 then (RuneError, 1)
                      else ((b % 8) * 262144 + (s1 % 64) * 4096 + (s2 % 64) * 64
                        + s3 % 64, 4) := by
          simp only [DecodeRune, hb, hf, hr1, if_false]
        rw [hd1] at hv ⊢
        rcases first_spec b sz lo hi hf with h | h | h
        · obtain ⟨rfl, h1, h2, rfl, rfl⟩ := h
          left
          exact ⟨s1, r1, rfl, h1, h2, by omega, by omega, by simp⟩
        · obtain ⟨rfl, h1, h2, h3, h4, h5, h6⟩ := h
          right; left
          cases r1 with
          | nil => exfalso; apply hv; simp
          | cons s2 r2 =>
            by_cases hr2 : s2 < 0x80 ∨ 0xBF < s2
            · exfalso; apply hv; simp [hr2]
            · refine ⟨s1, s2, r2, rfl, h1, h2, fun e => by have := h5 e; omega,
                fun e => by have := h6 e; omega, by omega, by omega, by omega, by omega, ?_⟩
              simp [hr2]
        · obtain ⟨rfl, h1, h2, h3, h4, h5, h6⟩ := h
          right; right
          cases r1 with
          | nil => exfalso; apply hv; simp
          | cons s2 r2 =>
            by_cases hr2 : s2 < 0x80 ∨ 0xBF < s2
            · exfalso; apply hv; simp [hr2]
            · cases r2 with
              | nil => exfalso; apply hv; simp [hr2]
              | cons s3 r3 =>
                by_cases hr3 : s3 < 0x80 ∨ 0xBF < s3
                · exfalso; apply hv; simp [hr2, hr3]
                · refine ⟨s1, s2, s3, r3, rfl, h1, h2, fun e => by have := h5 e; omega,
                    fun e => by have := h6 e; omega, by omega, by omega, by omega, by omega,
                    by omega, by omega, ?_⟩
                  simp [hr2, hr3]

theorem first_of_lead (b : Nat) (h1 : 0xC2 ≤ b) (h2 : b ≤ 0xF4) :
    ∃ sz lo hi, first b = some (sz, lo, hi)
      ∧ (b ≤ 0xDF → sz = 2) ∧ (0xE0 ≤ b → b ≤ 0xEF → sz = 3) ∧ (0xF0 ≤ b → sz = 4)
      ∧ (lo = 0x80 ∨ (b = 0xE0 ∧ lo = 0xA0) ∨ (b = 0xF0 ∧ lo = 0x90))
      ∧ (hi = 0xBF ∨ (b = 0xED ∧ hi = 0x9F) ∨ (b = 0xF4 ∧ hi = 0x8F)) := by
  unfold first
  split_ifs with c1 c2 c3 c4 c5 c6 c7
  · exact ⟨2, 0x80, 0xBF, rfl, by omega⟩
  · exact ⟨3, 0xA0, 0xBF, rfl, by omega⟩
  · exact ⟨3, 0x80, 0xBF, rfl, by omega⟩
  · exact ⟨3, 0x80, 0x9F, rfl, by omega⟩
  · exact ⟨4, 0x90, 0xBF, rfl, by omega⟩
  · exact ⟨4, 0x80, 0xBF, rfl, by omega⟩
  · exact ⟨4, 0x80, 0x8F, rfl, by omega⟩
  · omega

theorem DecodeRune_two (b s1 : Nat) (X : GoString) (h1 : 0xC2 ≤ b) (h2 : b ≤ 0xDF)
    (h3 : 0x80 ≤ s1) (h4 : s1 ≤ 0xBF) :
    DecodeRune (b :: s1 :: X) = ((b % 32) * 64 + s1 % 64, 2) := by
  obtain ⟨sz, lo, hi, hf, hs2, _, _, hlo, hhi⟩ := first_of_lead b h1 (by omega)
  have hb : ¬ b < 0x80 := by omega
  have hr1 : ¬ (s1 < lo ∨ hi < s1) := by omega
  have hsz : sz ≤ 2 := by have := hs2 h2; omega
  simp only [DecodeRune, hb, hf, hr1, hsz, if_false, if_true]

theorem DecodeRune_three (b s1 s2 : Nat) (X : GoString) (h1 : 0xE0 ≤ b) (h2 : b ≤ 0xEF)
    (h5 : b = 0xE0 → 0xA0 ≤ s1) (h6 : b = 0xED → s1 ≤ 0x9F)
    (h3 : 0x80 ≤ s1) (h4 : s1 ≤ 0xBF) (h7 : 0x80 ≤ s2) (h8 : s2 ≤ 0xBF) :
    DecodeRune (b :: s1 :: s2 :: X) = ((b % 16) * 4096 + (s1 % 64) * 64 + s2 % 64, 3) := by
  obtain ⟨sz, lo, hi, hf, _, hs3, _, hlo, hhi⟩ := first_of_lead b (by omega) (by omega)
  have hb : ¬ b < 0x80 := by omega
  have hr1 : ¬ (s1 < lo ∨ hi < s1) := by omega
  have hr2 : ¬ (s2 < 0x80 ∨ 0xBF < s2) := by omega
  have hsz : sz = 3 := hs3 h1 h2
  subst hsz
  simp only [DecodeRune, hb, hf, hr1, hr2, if_false]
  rfl

theorem DecodeRune_four (b s1 s2 s3 : Nat) (X : GoString) (h1 : 0xF0 ≤ b) (h2 : b ≤ 0xF4)
    (h5 : b = 0xF0 → 0x90 ≤ s1) (h6 : b = 0xF4 → s1 ≤ 0x8F)
    (h3 : 0x80 ≤ s1) (h4 : s1 ≤ 0xBF) (h7 : 0x80 ≤ s2) (h8 : s2 ≤ 0xBF)
    (h9 : 0x80 ≤ s3) (h10 : s3 ≤ 0xBF) :
    DecodeRune (b :: s1 :: s2 :: s3 :: X)
      = ((b % 8) * 262144 + (s1 % 64) * 4096 + (s2 % 64) * 64 + s3 % 64, 4) := by
  obtain ⟨sz, lo, hi, hf, _, _, hs4, hlo, hhi⟩ := first_of_lead b (by omega) h2
  have hb : ¬ b < 0x80 := by omega
  have hr1 : ¬ (s1 < lo ∨ hi < s1) := by omega
  have hr2 : ¬ (s2 < 0x80 ∨ 0xBF < s2) := by omega
  have hr3 : ¬ (s3 < 0x80 ∨ 0xBF < s3) := by omega
  have hsz : sz = 4 := hs4 h1
  subst hsz
  simp only [DecodeRune, hb, hf, hr1, hr2, hr3, if_false]
  rfl

/-- What the loops of the encoder and the decoder use of a successful
multi-byte decode: re-encoding the rune gives back the bytes read, which are
all non-ASCII, and the decode only looks at these bytes. -/
theorem DecodeRune_props (b : Nat) (rest : GoString) (hb : ¬ b < 0x80)
    (hv : ¬ ((DecodeRune (b :: rest)).1 = RuneError ∧ (DecodeRune (b :: rest)).2 = 1)) :
    EncodeRune (DecodeRune (b :: rest)).1 = (b :: rest).take (DecodeRune (b :: rest)).2
    ∧ 2 ≤ (DecodeRune (b :: rest)).2
    ∧ (DecodeRune (b :: rest)).2 ≤ (b :: rest).length
    ∧ (∀ x ∈ (b :: rest).take (DecodeRune (b :: rest)).2, 0x80 ≤ x ∧ x < 0x100)
    ∧ (∀ X, DecodeRune ((b :: rest).take (DecodeRune (b :: rest)).2 ++ X)
        = DecodeRune (b :: rest)) := by
  rcases DecodeRune_inv b rest hb hv with h | h | h
  · obtain ⟨s1, r1, rfl, h1, h2, h3, h4, hd⟩ := h
    rw [hd]
    refine ⟨?_, by simp, by simp, ?_, ?_⟩
    · have e1 : ¬ (b % 32) * 64 + s1 % 64 ≤ 0x7F := by omega
      have e2 : (b % 32) * 64 + s1 % 64 ≤ 0x7FF := by omega
      simp only [EncodeRune, e1, e2, if_false, if_true, List.take_succ_cons, List.take_zero,
        List.cons.injEq, and_true]
      constructor <;> omega
    · intro x hx
      simp only [List.take_succ_cons, List.take_zero, List.mem_cons, List.mem_nil_iff,
        or_false] at hx
      rcases hx with rfl | rfl <;> omega
    · intro X
      simpa using DecodeRune_two b s1 (X) h1 h2 h3 h4
  · obtain ⟨s1, s2, r2, rfl, h1, h2, h5, h6, h3, h4, h7, h8, hd⟩ := h
    rw [hd]
    refine ⟨?_, by simp, by simp, ?_, ?_⟩
    · have e1 : ¬ (b % 16) * 4096 + (s1 % 64) * 64 + s2 % 64 ≤ 0x7F := by omega
      have e2 : ¬ (b % 16) * 4096 + (s1 % 64) * 64 + s2 % 64 ≤ 0x7FF := by omega
      have e3 : ¬ ((b % 16) * 4096 + (s1 % 64) * 64 + s2 % 64 > 0x10FFFF
          ∨ (0xD800 ≤ (b % 16) * 4096 + (s1 % 64) * 64 + s2 % 64
            ∧ (b % 16) * 4096 + (s1 % 64) * 64 + s2 % 64 ≤ 0xDFFF)) := by omega
      have e4 : (b % 16) * 4096 + (s1 % 64) * 64 + s2 % 64 ≤ 0xFFFF := by omega
      simp only [EncodeRune, e1, e2, e3, e4, if_false, if_true, List.take_succ_cons,
        List.take_zero, List.cons.injEq, and_true]
      refine ⟨?_, ?_, ?_⟩ <;> omega
    · intro x hx
      simp only [List.take_succ_cons, List.take_zero, List.mem_cons, List.mem_nil_iff,
        or_false] at hx
      rcases hx with rfl | rfl | rfl <;> omega
    · intro X
      simpa using DecodeRune_three b s1 s2 X h1 h2 h5 h6 h3 h4 h7 h8
  · obtain ⟨s1, s2, s3, r3, rfl, h1, h2, h5, h6, h3, h4, h7, h8, h9, h10, hd⟩ := h
    rw [hd]
    refine ⟨?_, by simp, by simp, ?_, ?_⟩
    · have e1 : ¬ (b % 8) * 262144 + (s1 % 64) * 4096 + (s2 % 64) * 64 + s3 % 64 ≤ 0x7F := by
        omega
      have e2 : ¬ (b % 8) * 262144 + (s1 % 64) * 4096 + (s2 % 64) * 64 + s3 % 64 ≤ 0x7FF := by
        omega
      have e3 : ¬ ((b % 8) * 262144 + (s1 % 64) * 4096 + (s2 % 64) * 64 + s3 % 64 > 0x10FFFF
          ∨ (0xD800 ≤ (b % 8) * 262144 + (s1 % 64) * 4096 + (s2 % 64) * 64 + s3 % 64
            ∧ (b % 8) * 262144 + (s1 % 64) * 4096 + (s2 % 64) * 64 + s3 % 64 ≤ 0xDFFF)) := by
        have := h5; have := h6
        omega
      have e4 : ¬ (b % 8) * 262144 + (s1 % 64) * 4096 + (s2 % 64) * 64 + s3 % 64 ≤ 0xFFFF := by
        have := h5
        omega
      simp only [EncodeRune, e1, e2, e3, e4, if_false, List.take_succ_cons,
        List.take_zero, List.cons.injEq, and_true]
      refine ⟨?_, ?_, ?_, ?_⟩ <;> omega
    · intro x hx
      simp only [List.take_succ_cons, List.take_zero, List.mem_cons, List.mem_nil_iff,
        or_false] at hx
      rcases hx with rfl | rfl | rfl | rfl <;> omega
    · intro X
      simpa using DecodeRune_four b s1 s2 s3 X h1 h2 h5 h6 h3 h4 h7 h8 h9 h10

/-! ## JSON string literals: lemmas -/

theorem hex_spec : ∀ n, n < 16 → isHex (hex n) = true ∧ hexVal (hex n) = n := by
  decide

theorem DecodeRune_size_pos (c : Nat) (rest : GoString) : 1 ≤ (DecodeRune (c :: rest)).2 := by
  by_cases hb : c < 0x80
  · simp [DecodeRune, hb]
  · by_cases hv : (DecodeRune (c :: rest)).1 = RuneError ∧ (DecodeRune (c :: rest)).2 = 1
    · omega
    · have := (DecodeRune_props c rest hb hv).2.1
      omega

/-! ### The scanner accepts what the encoder writes -/

theorem scanString_plain_chunk (chunk X lit r : GoString) (hc : ∀ x ∈ chunk, 0x80 ≤ x)
    (hX : scanStringFrom .inString X = some (lit, r)) :
    scanStringFrom .inString (chunk ++ X) = some (chunk ++ lit, r) := by
  induction chunk with
  | nil => simpa using hX
  | cons c chunk ih =>
    have hc0 : 0x80 ≤ c := hc c (List.mem_cons_self _ _)
    have h1 : ¬ c = 0x22 := by omega
    have h2 : ¬ c = 0x5C := by omega
    have h3 : ¬ c < 0x20 := by omega
    have := ih (fun x hx => hc x (List.mem_cons_of_mem _ hx))
    rw [List.cons_append]
    simp only [scanStringFrom, h1, h2, h3, if_false]
    rw [this]
    rfl

theorem scanString_encodeByte (b : Nat) (hb : b < 0x80) (X lit r : GoString)
    (hX : scanStringFrom .inString X = some (lit, r)) :
    scanStringFrom .inString (encodeByte b ++ X) = some (encodeByte b ++ lit, r) := by
  unfold encodeByte
  by_cases hs : htmlSafe b = true
  · have hs2 := hs
    simp only [htmlSafe, decide_eq_true_eq] at hs2
    have h1 : ¬ b = 0x22 := by omega
    have h2 : ¬ b = 0x5C := by omega
    have h3 : ¬ b < 0x20 := by omega
    simp only [hs, if_true, List.cons_append, List.nil_append, scanStringFrom, h1, h2, h3,
      if_false, hX, consLit]
  · simp only [hs, Bool.false_eq_true, if_false]
    by_cases hq : b = 0x5C ∨ b = 0x22
    · rcases hq with rfl | rfl <;> simp [scanStringFrom, hX, consLit]
    · simp only [hq, if_false]
      by_cases hn : b = 0x0A
      · simp [hn, scanStringFrom, hX, consLit]
      · by_cases hr : b = 0x0D
        · simp [hr, scanStringFrom, hX, consLit]
        · by_cases ht : b = 0x09
          · simp [ht, scanStringFrom, hX, consLit]
          · have e1 := (hex_spec (b / 16) (by omega)).1
            have e2 := (hex_spec (b % 16) (by omega)).1
            have z : isHex 0x30 = true := by decide
            simp [hn, hr, ht, scanStringFrom, hX, e1, e2, z, consLit]

theorem scanString_encodeStep (b : Nat) (rest X lit r : GoString)
    (hX : scanStringFrom .inString X = some (lit, r)) :
    scanStringFrom .inString ((encodeStep b rest).1 ++ X)
      = some ((encodeStep b rest).1 ++ lit, r) := by
  unfold encodeStep
  by_cases hb : b < 0x80
  · simp only [hb, if_true]
    exact scanString_encodeByte b hb X lit r hX
  · simp only [hb, if_false]
    by_cases hv : (DecodeRune (b :: rest)).1 = RuneError ∧ (DecodeRune (b :: rest)).2 = 1
    · simp only [hv, and_self, if_true]
      simp [scanStringFrom, hX, isHex, consLit]
    · simp only [hv, if_false]
      by_cases hl : (DecodeRune (b :: rest)).1 = 0x2028 ∨ (DecodeRune (b :: rest)).1 = 0x2029
      · simp only [hl, if_true]
        rcases hl with hl | hl <;> simp [hl, scanStringFrom, hX, isHex, hex, consLit]
      · simp only [hl, if_false]
        exact scanString_plain_chunk _ X lit r
          (fun x hx => ((DecodeRune_props b rest hb hv).2.2.2.1 x hx).1) hX

theorem scanString_encodeStringLoop (f : Nat) (s R : GoString) :
    scanString (encodeStringLoop f s ++ 0x22 :: R) = some (encodeStringLoop f s, R) := by
  unfold scanString
  induction f generalizing s with
  | zero => cases s <;> simp [encodeStringLoop, scanStringFrom]
  | succ f ih =>
    cases s with
    | nil => simp [encodeStringLoop, scanStringFrom]
    | cons b rest =>
      simp only [encodeStringLoop, List.append_assoc]
      exact scanString_encodeStep b rest _ _ R (ih _)

/-! ### `unquoteBytes` undoes the encoder on well-formed UTF-8 -/

theorem unquoteStep_encodeByte (b : Nat) (hb : b < 0x80) (X : GoString) :
    ∃ c t, encodeByte b ++ X = c :: t ∧ unquoteStep c t = some ([b], X) := by
  unfold encodeByte
  by_cases hs : htmlSafe b = true
  · have hs2 := hs
    simp only [htmlSafe, decide_eq_true_eq] at hs2
    have h1 : ¬ b = 0x5C := by omega
    have h2 : ¬ (b = 0x22 ∨ b < 0x20) := by omega
    refine ⟨b, X, by simp [hs], ?_⟩
    simp only [unquoteStep, h1, h2, hb, if_false, if_true]
  · simp only [hs, Bool.false_eq_true, if_false]
    by_cases hq : b = 0x5C ∨ b = 0x22
    · refine ⟨0x5C, b :: X, by simp [hq], ?_⟩
      rcases hq with rfl | rfl <;> simp [unquoteStep, simpleEscape]
    · simp only [hq, if_false]
      by_cases hn : b = 0x0A
      · exact ⟨0x5C, 0x6E :: X, by simp [hn], by simp [unquoteStep, simpleEscape, hn]⟩
      · by_cases hr : b = 0x0D
        · exact ⟨0x5C, 0x72 :: X, by simp [hr], by simp [unquoteStep, simpleEscape, hr]⟩
        · by_cases ht : b = 0x09
          · exact ⟨0x5C, 0x74 :: X, by simp [ht], by simp [unquoteStep, simpleEscape, ht]⟩
          · obtain ⟨e1, v1⟩ := hex_spec (b / 16) (by omega)
            obtain ⟨e2, v2⟩ := hex_spec (b % 16) (by omega)
            refine ⟨0x5C, 0x75 :: 0x30 :: 0x30 :: hex (b / 16) :: hex (b % 16) :: X,
              by simp [hn, hr, ht], ?_⟩
            have hg : getu4 (0x5C :: 0x75 :: 0x30 :: 0x30 :: hex (b / 16) :: hex (b % 16) :: X)
                = some b := by
              have z : isHex 0x30 = true := by decide
              have hz : hexVal 0x30 = 0 := by decide
              simp only [getu4, e1, e2, v1, v2, z, hz, and_self, if_true, Option.some.injEq]
              omega
            have hsur : isSurrogate b = false := by
              simp only [isSurrogate, decide_eq_false_iff_not]; omega
            have henc : EncodeRune b = [b] := by
              have : b ≤ 0x7F := by omega
              simp only [EncodeRune, this, if_true]
            simp only [unquoteStep, unquoteU, hg, hsur, henc]
            simp

/-- Decoding one chunk written by the encoder for a well-formed rune gives back
the bytes the encoder consumed. -/
theorem unquoteStep_encodeStep (b : Nat) (rest X : GoString)
    (hv : ¬ b < 0x80 →
      ¬ ((DecodeRune (b :: rest)).1 = RuneError ∧ (DecodeRune (b :: rest)).2 = 1)) :
    ∃ c t k, (encodeStep b rest).1 ++ X = c :: t
      ∧ unquoteStep c t = some ((b :: rest).take k, X)
      ∧ (encodeStep b rest).2 = (b :: rest).drop k := by
  unfold encodeStep
  by_cases hb : b < 0x80
  · simp only [hb, if_true]
    obtain ⟨c, t, h1, h2⟩ := unquoteStep_encodeByte b hb X
    exact ⟨c, t, 1, h1, by simpa using h2, by simp⟩
  · have hv2 := hv hb
    obtain ⟨p1, p2, p3, p4, p5⟩ := DecodeRune_props b rest hb hv2
    simp only [hb, hv2, if_false]
    by_cases hl : (DecodeRune (b :: rest)).1 = 0x2028 ∨ (DecodeRune (b :: rest)).1 = 0x2029
    · simp only [hl, if_true]
      refine ⟨0x5C, 0x75 :: 0x32 :: 0x30 :: 0x32 :: hex ((DecodeRune (b :: rest)).1 % 16) :: X,
        (DecodeRune (b :: rest)).2, by simp, ?_, rfl⟩
      rw [← p1]
      rcases hl with hl | hl <;> rw [hl] <;>
        simp [unquoteStep, unquoteU, getu4, hex, isHex, hexVal, isSurrogate]
    · simp only [hl, if_false]
      have htake : (b :: rest).take (DecodeRune (b :: rest)).2
          = b :: rest.take ((DecodeRune (b :: rest)).2 - 1) := by
        obtain ⟨n, hn⟩ : ∃ n, (DecodeRune (b :: rest)).2 = n + 1 :=
          ⟨(DecodeRune (b :: rest)).2 - 1, by omega⟩
        rw [hn]; simp
      refine ⟨b, rest.take ((DecodeRune (b :: rest)).2 - 1) ++ X, (DecodeRune (b :: rest)).2,
        by rw [htake]; rfl, ?_, rfl⟩
      have h1 : ¬ b = 0x5C := by omega
      have h2 : ¬ (b = 0x22 ∨ b < 0x20) := by omega
      have hd : DecodeRune (b :: (rest.take ((DecodeRune (b :: rest)).2 - 1) ++ X))
          = DecodeRune (b :: rest) := by
        have := p5 X
        rw [htake] at this
        exact this
      have hdrop : (b :: (rest.take ((DecodeRune (b :: rest)).2 - 1) ++ X)).drop
          (DecodeRune (b :: rest)).2 = X := by
        have hlen : ((b :: rest).take (DecodeRune (b :: rest)).2).length
            = (DecodeRune (b :: rest)).2 := by
          rw [List.length_take]; omega
        have := @List.drop_left' _ _ X _ hlen
        rw [htake] at this
        exact this
      simp only [unquoteStep, h1, h2, hb, if_false, hd, p1, hdrop]

theorem encodeStep_fst_length_pos (b : Nat) (rest : GoString) :
    1 ≤ (encodeStep b rest).1.length := by
  unfold encodeStep
  have := DecodeRune_size_pos b rest
  by_cases hb : b < 0x80
  · simp only [hb, if_true]
    unfold encodeByte
    split_ifs <;> simp
  · simp only [hb, if_false]
    split_ifs
    · simp
    · simp
    · simp only [List.length_take, List.length_cons]; omega

theorem unquoteLoop_encodeStringLoop (f : Nat) (s : GoString) (g : Nat)
    (hvalid : validUTF8 f s = true) (hg : (encodeStringLoop f s).length ≤ g) :
    unquoteLoop g (encodeStringLoop f s) = some s := by
  induction f generalizing s g with
  | zero =>
    cases s with
    | nil => cases g <;> simp [encodeStringLoop, unquoteLoop]
    | cons b rest => simp [validUTF8] at hvalid
  | succ f ih =>
    cases s with
    | nil => cases g <;> simp [encodeStringLoop, unquoteLoop]
    | cons b rest =>
      have hhead : ¬ b < 0x80 →
          ¬ ((DecodeRune (b :: rest)).1 = RuneError ∧ (DecodeRune (b :: rest)).2 = 1) := by
        intro hb hbad
        simp [validUTF8, hb, hbad] at hvalid
      have hrest : validUTF8 f (encodeStep b rest).2 = true := by
        unfold encodeStep
        by_cases hb : b < 0x80
        · simpa [validUTF8, hb] using hvalid
        · have hv2 := hhead hb
          simp only [validUTF8, hb, hv2, if_false] at hvalid
          simp only [hb, hv2, if_false]
          split_ifs <;> exact hvalid
      obtain ⟨c, t, k, h1, h2, h3⟩ :=
        unquoteStep_encodeStep b rest (encodeStringLoop f (encodeStep b rest).2) hhead
      simp only [encodeStringLoop] at hg ⊢
      rw [h1] at hg ⊢
      cases g with
      | zero => simp at hg
      | succ g =>
        have hg2 : (encodeStringLoop f (encodeStep b rest).2).length ≤ g := by
          have hlen := congrArg List.length h1
          simp only [List.length_append, List.length_cons] at hlen hg
          have := encodeStep_fst_length_pos b rest
          omega
        have hih := ih _ g hrest hg2
        simp only [unquoteLoop, h2, hih]
        rw [h3, List.take_append_drop]

/-! ### The fuel of the encoder loop and of the validity check never runs out -/

theorem encodeStep_snd_length (b : Nat) (rest : GoString) :
    (encodeStep b rest).2.length ≤ rest.length := by
  unfold encodeStep
  have := DecodeRune_size_pos b rest
  by_cases hb : b < 0x80
  · simp only [hb, if_true]; exact le_refl _
  · simp only [hb, if_false]
    split_ifs
    · exact le_refl _
    · simp only [List.length_drop, List.length_cons]; omega
    · simp only [List.length_drop, List.length_cons]; omega

theorem encodeStringLoop_fuel (f g : Nat) (s : GoString) (hf : s.length ≤ f)
    (hg : s.length ≤ g) : encodeStringLoop f s = encodeStringLoop g s := by
  induction f generalizing g s with
  | zero =>
    cases s with
    | nil => cases g <;> simp [encodeStringLoop]
    | cons c rest => simp at hf
  | succ f ih =>
    cases s with
    | nil => cases g <;> simp [encodeStringLoop]
    | cons c rest =>
      cases g with
      | zero => simp at hg
      | succ g =>
        have hl := encodeStep_snd_length c rest
        simp only [List.length_cons] at hf hg
        simp only [encodeStringLoop]
        rw [ih g _ (by omega) (by omega)]

theorem validUTF8_fuel (f g : Nat) (s : GoString) (hf : s.length ≤ f)
    (hg : s.length ≤ g) : validUTF8 f s = validUTF8 g s := by
  induction f generalizing g s with
  | zero =>
    cases s with
    | nil => cases g <;> simp [validUTF8]
    | cons c rest => simp at hf
  | succ f ih =>
    cases s with
    | nil => cases g <;> simp [validUTF8]
    | cons c rest =>
      cases g with
      | zero => simp at hg
      | succ g =>
        have hsz := DecodeRune_size_pos c rest
        simp only [List.length_cons] at hf hg
        simp only [validUTF8]
        rw [ih g rest (by omega) (by omega),
          ih g ((c :: rest).drop (DecodeRune (c :: rest)).2)
            (by simp only [List.length_drop, List.length_cons]; omega)
            (by simp only [List.length_drop, List.length_cons]; omega)]

/-! ### The two loops of `unquoteBytes` -/

theorem unquoteU_length (s out r : GoString) (h : unquoteU s = some (out, r)) :
    r.length ≤ s.length - 6 := by
  unfold unquoteU at h
  cases hg : getu4 s with
  | none => rw [hg] at h; cases h
  | some rr =>
    rw [hg] at h
    simp only [] at h
    by_cases h1 : isSurrogate rr = true
    · by_cases h2 : utf16DecodeRune rr (getu4 (List.drop 6 s)) ≠ 0xFFFD
      · simp only [h1, h2, if_true, ne_eq, not_false_eq_true, Option.some.injEq,
          Prod.mk.injEq] at h
        obtain ⟨_, rfl⟩ := h
        simp only [List.length_drop]; omega
      · simp only [h1, h2, if_true, if_false, Option.some.injEq, Prod.mk.injEq] at h
        obtain ⟨_, rfl⟩ := h
        simp only [List.length_drop]; omega
    · simp only [h1, if_false, Option.some.injEq, Prod.mk.injEq] at h
      obtain ⟨_, rfl⟩ := h
      simp only [List.length_drop]; omega

theorem unquoteStep_length (c : Nat) (rest out r : GoString)
    (h : unquoteStep c rest = some (out, r)) : r.length ≤ rest.length := by
  unfold unquoteStep at h
  have hsz := DecodeRune_size_pos c rest
  by_cases hc : c = 0x5C
  · simp only [hc, if_true] at h
    cases rest with
    | nil => cases h
    | cons e rest1 =>
      simp only [] at h
      by_cases he : e = 0x75
      · simp only [he, if_true] at h
        have := unquoteU_length _ out r h
        simp only [List.length_cons] at this ⊢
        omega
      · simp only [he, if_false] at h
        cases hx : simpleEscape e with
        | none => rw [hx] at h; cases h
        | some x =>
          rw [hx] at h
          simp only [Option.some.injEq, Prod.mk.injEq] at h
          obtain ⟨_, rfl⟩ := h
          simp
  · simp only [hc, if_false] at h
    by_cases h2 : c = 0x22 ∨ c < 0x20
    · simp only [h2, if_true] at h; cases h
    · simp only [h2, if_false] at h
      by_cases h3 : c < 0x80
      · simp only [h3, if_true, Option.some.injEq, Prod.mk.injEq] at h
        obtain ⟨_, rfl⟩ := h
        exact le_refl _
      · simp only [h3, if_false, Option.some.injEq, Prod.mk.injEq] at h
        obtain ⟨_, rfl⟩ := h
        simp only [List.length_drop, List.length_cons]; omega

theorem unquoteLoop_fuel (f g : Nat) (s : GoString) (hf : s.length ≤ f) (hg : s.length ≤ g) :
    unquoteLoop f s = unquoteLoop g s := by
  induction f generalizing g s with
  | zero =>
    cases s with
    | nil => cases g <;> simp [unquoteLoop]
    | cons c rest => simp at hf
  | succ f ih =>
    cases s with
    | nil => cases g <;> simp [unquoteLoop]
    | cons c rest =>
      cases g with
      | zero => simp at hg
      | succ g =>
        simp only [unquoteLoop]
        cases hs : unquoteStep c rest with
        | none => rfl
        | some p =>
          obtain ⟨out, r⟩ := p
          have hl := unquoteStep_length c rest out r hs
          simp only [List.length_cons] at hf hg
          simp only []
          rw [ih g r (by omega) (by omega)]

theorem plainStep_unquoteStep (c : Nat) (rest r : GoString) (k : Nat)
    (h : plainStep c rest = some (k, r)) :
    unquoteStep c rest = some ((c :: rest).take k, r) ∧ r = (c :: rest).drop k
      ∧ r.length ≤ rest.length := by
  unfold plainStep at h
  by_cases h1 : c = 0x5C ∨ c = 0x22 ∨ c < 0x20
  · simp only [h1, if_true] at h; cases h
  · simp only [h1, if_false] at h
    have e1 : ¬ c = 0x5C := by omega
    have e2 : ¬ (c = 0x22 ∨ c < 0x20) := by omega
    by_cases h2 : c < 0x80
    · simp only [h2, if_true, Option.some.injEq, Prod.mk.injEq] at h
      obtain ⟨rfl, rfl⟩ := h
      simp [unquoteStep, e1, e2, h2]
    · simp only [h2, if_false] at h
      by_cases h3 : (DecodeRune (c :: rest)).1 = RuneError ∧ (DecodeRune (c :: rest)).2 = 1
      · simp only [h3, and_self, if_true] at h; cases h
      · simp only [h3, if_false, Option.some.injEq, Prod.mk.injEq] at h
        obtain ⟨rfl, rfl⟩ := h
        obtain ⟨p1, p2, _, _, _⟩ := DecodeRune_props c rest h2 h3
        refine ⟨?_, rfl, ?_⟩
        · simp only [unquoteStep, e1, e2, h2, if_false, p1]
        · simp only [List.length_drop, List.length_cons]; omega

theorem unquoteLoop_plainRun (f g : Nat) (t : GoString) (hg : t.length ≤ g) :
    unquoteLoop g t
      = match unquoteLoop g (t.drop (plainRun f t)) with
        | none => none
        | some u => some (t.take (plainRun f t) ++ u) := by
  induction f generalizing g t with
  | zero =>
    cases t with
    | nil => cases g <;> simp [plainRun, unquoteLoop]
    | cons c rest =>
      simp only [plainRun, List.drop_zero, List.take_zero, List.nil_append]
      cases unquoteLoop g (c :: rest) <;> rfl
  | succ f ih =>
    cases t with
    | nil => cases g <;> simp [plainRun, unquoteLoop]
    | cons c rest =>
      cases hp : plainStep c rest with
      | none =>
        simp only [plainRun, hp, List.drop_zero, List.take_zero, List.nil_append]
        cases unquoteLoop g (c :: rest) <;> rfl
      | some p =>
        obtain ⟨k, r⟩ := p
        obtain ⟨h1, h2, h3⟩ := plainStep_unquoteStep c rest r k hp
        cases g with
        | zero => simp at hg
        | succ g =>
          simp only [List.length_cons] at hg
          have hdrop : (c :: rest).drop (k + plainRun f r) = r.drop (plainRun f r) := by
            rw [h2, List.drop_drop, Nat.add_comm]
          have htake : (c :: rest).take (k + plainRun f r)
              = (c :: rest).take k ++ r.take (plainRun f r) := by
            rw [h2, List.take_add]
          have hfuel : unquoteLoop (g + 1) (r.drop (plainRun f r))
              = unquoteLoop g (r.drop (plainRun f r)) := by
            apply unquoteLoop_fuel
            · simp only [List.length_drop]; omega
            · simp only [List.length_drop]; omega
          simp only [plainRun, hp, hdrop, htake, hfuel]
          simp only [unquoteLoop, h1]
          rw [ih g r (by omega)]
          cases unquoteLoop g (r.drop (plainRun f r)) <;> simp

theorem unquote_eq (t : GoString) : unquote t = unquoteLoop t.length t := by
  have h := unquoteLoop_plainRun t.length t.length t (le_refl _)
  unfold unquote
  simp only []
  split_ifs with hr
  · rw [h, hr]
    simp [unquoteLoop]
  · exact h.symm

/-- A string literal written by the encoder for well-formed UTF-8 text is read
back as that text. -/
theorem parseKey_encodeString (s R : GoString) (hs : ValidString s) :
    parseKey (encodeString s ++ R) = some (s, R) := by
  unfold encodeString parseKey
  simp only [List.cons_append, List.append_assoc, List.singleton_append, if_true,
    scanString_encodeStringLoop, unquote_eq]
  rw [unquoteLoop_encodeStringLoop s.length s _ hs (le_refl _)]
  simp

/-! ## JSON records: lemmas -/

theorem skipSpace_encodeString (s R : GoString) :
    skipSpace (encodeString s ++ R) = encodeString s ++ R := by
  simp [encodeString, skipSpace, isSpace]

theorem parseValue_encodeString (n : Nat) (s R : GoString) (hs : ValidString s) :
    parseValue (n + 1) (encodeString s ++ R) = some (.str s, R) := by
  have h := parseKey_encodeString s R hs
  have hc : encodeString s ++ R = 0x22 :: (encodeStringLoop s.length s ++ 0x22 :: R) := by
    simp [encodeString]
  rw [hc] at h ⊢
  simp only [parseValue, if_true, h]

theorem parseMembers_last (f : Nat) (key val R : GoString) (hk : ValidString key)
    (hv : ValidString val) :
    parseMembers (f + 2) (encodeString key ++ 0x3A :: (encodeString val ++ 0x7D :: R))
      = some ([(key, .str val)], R) := by
  have sp1 : ∀ X : GoString, skipSpace (0x3A :: X) = 0x3A :: X := by
    intro X; simp [skipSpace, isSpace]
  have sp3 : ∀ X : GoString, skipSpace (0x7D :: X) = 0x7D :: X := by
    intro X; simp [skipSpace, isSpace]
  rw [parseMembers]
  simp only [parseKey_encodeString _ _ hk, sp1, if_true,
    skipSpace_encodeString, parseValue_encodeString _ _ _ hv, sp3]
  simp

theorem parseMembers_more (f : Nat) (key val Y : GoString) (hk : ValidString key)
    (hv : ValidString val) (kvs : List (GoString × Json)) (R : GoString)
    (hY : parseMembers (f + 1) (skipSpace Y) = some (kvs, R)) :
    parseMembers (f + 2) (encodeString key ++ 0x3A :: (encodeString val ++ 0x2C :: Y))
      = some ((key, .str val) :: kvs, R) := by
  have sp1 : ∀ X : GoString, skipSpace (0x3A :: X) = 0x3A :: X := by
    intro X; simp [skipSpace, isSpace]
  have sp2 : ∀ X : GoString, skipSpace (0x2C :: X) = 0x2C :: X := by
    intro X; simp [skipSpace, isSpace]
  rw [parseMembers]
  simp only [parseKey_encodeString _ _ hk, sp1, if_true,
    skipSpace_encodeString, parseValue_encodeString _ _ _ hv, sp2, hY]

/-- The members written by the encoder for a `Message`, from the first key to
the closing brace, and the input `R` after it. -/
theorem parseMembers_encodeMessage (n : Nat) (m : Message) (R : GoString)
    (he : ValidString m.Email) (hu : ValidString m.Username) (hm : ValidString m.Message) :
    parseMembers (n + 4)
        (encodeString keyEmail ++ 0x3A :: (encodeString m.Email ++ 0x2C ::
          (encodeString keyUsername ++ 0x3A :: (encodeString m.Username ++ 0x2C ::
            (encodeString keyMessage ++ 0x3A :: (encodeString m.Message ++ 0x7D :: R))))))
      = some ([(keyEmail, .str m.Email), (keyUsername, .str m.Username),
          (keyMessage, .str m.Message)], R) := by
  have k1 : ValidString keyEmail := by decide
  have k2 : ValidString keyUsername := by decide
  have k3 : ValidString keyMessage := by decide
  apply parseMembers_more (n + 2) _ _ _ k1 he
  rw [skipSpace_encodeString]
  apply parseMembers_more (n + 1) _ _ _ k2 hu
  rw [skipSpace_encodeString]
  exact parseMembers_last n _ _ _ k3 hm

theorem encodeMessage_shape (m : Message) :
    encodeMessage m = 0x7B :: (encodeString keyEmail ++ 0x3A :: (encodeString m.Email ++ 0x2C ::
          (encodeString keyUsername ++ 0x3A :: (encodeString m.Username ++ 0x2C ::
            (encodeString keyMessage ++ 0x3A :: (encodeString m.Message ++ 0x7D :: [])))))) := by
  have k1 : encodeString keyEmail = 0x22 :: (keyEmail ++ [0x22]) := by decide
  have k2 : encodeString keyUsername = 0x22 :: (keyUsername ++ [0x22]) := by decide
  have k3 : encodeString keyMessage = 0x22 :: (keyMessage ++ [0x22]) := by decide
  rw [k1, k2, k3]
  simp [encodeMessage]

theorem encodeMessage_length (m : Message) : 38 ≤ (encodeMessage m).length := by
  simp only [encodeMessage, encodeString, keyEmail, keyUsername, keyMessage, List.length_append,
    List.length_cons, List.length_nil]
  omega

/-- The call `json.Unmarshal` reads back what `json.Marshal` wrote for a `Message` whose
three fields are well-formed UTF-8. -/
theorem jsonUnmarshal_encodeMessage (m : Message)
    (he : ValidString m.Email) (hu : ValidString m.Username) (hm : ValidString m.Message) :
    jsonUnmarshal (encodeMessage m) = .ok m := by
  obtain ⟨n, hn⟩ : ∃ n, (encodeMessage m).length + 1 = n + 5 :=
    ⟨(encodeMessage m).length - 4, by have := encodeMessage_length m; omega⟩
  unfold jsonUnmarshal
  rw [hn, encodeMessage_shape]
  have hsp : ∀ X : GoString, skipSpace (0x7B :: X) = 0x7B :: X := by
    intro X; simp [skipSpace, isSpace]
  have hk : ∀ X : GoString, skipSpace (encodeString keyEmail ++ X)
      = 0x22 :: (encodeStringLoop keyEmail.length keyEmail ++ 0x22 :: X) := by
    intro X; rw [skipSpace_encodeString]; simp [encodeString]
  have hpm := parseMembers_encodeMessage n m [] he hu hm
  have hk2 : ∀ X : GoString, encodeString keyEmail ++ X
      = 0x22 :: (encodeStringLoop keyEmail.length keyEmail ++ 0x22 :: X) := by
    intro X; simp [encodeString]
  rw [hk2] at hpm
  rw [hsp, parseValue]
  simp only [hk, hpm]
  have f1 : findField keyEmail = some .email := by decide
  have f2 : findField keyUsername = some .username := by decide
  have f3 : findField keyMessage = some .message := by decide
  simp [skipSpace, decodeMembers, f1, f2, f3, setField]

/-! ## Claims -/

/-- C1: when the spell-checker call returns an error, the message dequeued by
`handleMessages` is handed to `sendToAll` unchanged: the step is `sendToAll` on
the submitted message, the entry appended to the history is the serialization
of the submitted message, and every write of the fan-out carries the submitted
message with its `Email`, `Username` and `Message` fields. -/
theorem handleMessages_checker_error_keeps_message
    (marshal : Message → Except String GoString) (env : StepEnv) (e : String)
    (msg : Message) (rest : List Message) (st : State)
    (hq : st.broadcast = msg :: rest) (herr : env.check = .error e) :
    handleMessagesStep marshal env st
        = sendToAll marshal env msg ({ st with broadcast := rest }.emit (.recv msg))
    ∧ enrich env.check msg = msg
    ∧ (handleMessagesStep marshal env st).history
        = st.history ++ pushed marshal env.pushOk msg
    ∧ (handleMessagesStep marshal env st).trace
        = st.trace ++ [.recv msg] ++ pushEvents marshal env.pushOk msg
            ++ fanoutEvents env.writeOk msg st.clients
    ∧ (∀ c, attempted c (handleMessagesStep marshal env st).trace
        = attempted c st.trace ++ List.replicate (st.clients.count c) (.msg msg)) := by
  have hen : enrich env.check msg = msg := by rw [herr]; rfl
  have hstep := handleMessagesStep_cons marshal env msg rest st hq
  rw [hen] at hstep
  refine ⟨hstep, hen, ?_, ?_, ?_⟩
  · rw [hstep, sendToAll_history]; rfl
  · rw [hstep, sendToAll_trace]; rfl
  · intro c
    rw [hstep, sendToAll_trace]
    simp only [attempted_append, (pushEvents_no_write _ _ _ _).1, attempted_fanoutEvents,
      State.emit, List.append_nil]
    simp [attempted]

/-- Witness of C1 on the three-client scenario with the checker unreachable:
the history receives the serialized submitted record and each client the
submitted record. -/
theorem handleMessages_checker_error_keeps_message_witness :
    exState.broadcast = exMsg :: [] ∧ exEnvErr.check = .error "unavailable"
    ∧ (handleMessagesStep jsonMarshal exEnvErr exState).history = [encodeMessage exMsg]
    ∧ attempted 1 (handleMessagesStep jsonMarshal exEnvErr exState).trace = [.msg exMsg] := by
  have h := handleMessages_checker_error_keeps_message jsonMarshal exEnvErr "unavailable"
    exMsg [] exState rfl rfl
  refine ⟨rfl, rfl, ?_, ?_⟩
  · rw [h.2.2.1]; rfl
  · rw [h.2.2.2.2 1]; rfl

/-- C2: in one pipeline step the entry appended to the history list is the
serialization of the very message written to each client; with a successful
checker answer `s` that message carries `s` as its text (and the submitted
`Email` and `Username`). -/
theorem pipeline_history_entry_matches_delivery
    (marshal : Message → Except String GoString) (env : StepEnv)
    (msg : Message) (rest : List Message) (st : State)
    (hq : st.broadcast = msg :: rest) :
    (∀ s, env.check = .ok s → enrich env.check msg
        = { Email := msg.Email, Username := msg.Username, Message := s })
    ∧ (handleMessagesStep marshal env st).history
        = st.history ++ pushed marshal env.pushOk (enrich env.check msg)
    ∧ (∀ entry ∈ pushed marshal env.pushOk (enrich env.check msg),
        marshal (enrich env.check msg) = .ok entry)
    ∧ (∀ c, attempted c (handleMessagesStep marshal env st).trace
        = attempted c st.trace
            ++ List.replicate (st.clients.count c) (.msg (enrich env.check msg)))
    ∧ (∀ c, delivered c (handleMessagesStep marshal env st).trace
        = delivered c st.trace ++ if env.writeOk c
            then List.replicate (st.clients.count c) (.msg (enrich env.check msg)) else []) := by
  have hstep := handleMessagesStep_cons marshal env msg rest st hq
  refine ⟨?_, ?_, ?_, ?_, ?_⟩
  · intro s hs; rw [hs]; rfl
  · rw [hstep, sendToAll_history]; rfl
  · intro entry hentry
    unfold pushed at hentry
    cases hm : marshal (enrich env.check msg) with
    | error err => rw [hm] at hentry; cases hentry
    | ok j =>
      rw [hm] at hentry
      cases hp : env.pushOk
      · rw [hp] at hentry; cases hentry
      · rw [hp] at hentry; simp at hentry; rw [hentry]
  · intro c
    rw [hstep, sendToAll_trace]
    simp only [attempted_append, (pushEvents_no_write _ _ _ _).1, attempted_fanoutEvents,
      State.emit, List.append_nil]
    simp [attempted]
  · intro c
    rw [hstep, sendToAll_trace]
    simp only [delivered_append, (pushEvents_no_write _ _ _ _).2, delivered_fanoutEvents,
      State.emit, List.append_nil]
    simp [delivered]

/-- Witness of C2, the three-client scenario: A sends "helo wrld", the checker
answers "hello world"; the last history entry is the serialized corrected
record, it deserializes to the corrected record, and A, B and C each receive
the corrected record. -/
theorem pipeline_history_entry_matches_delivery_witness :
    exState.broadcast = exMsg :: []
    ∧ (handleMessagesStep jsonMarshal exEnvOk exState).history
        = [ascii "\x7b\"email\":\"a@x\",\"username\":\"alice\",\"message\":\"hello world\"\x7d"]
    ∧ ((handleMessagesStep jsonMarshal exEnvOk exState).history.map jsonUnmarshal).getLast?
        = some (.ok exFixed)
    ∧ delivered 0 (handleMessagesStep jsonMarshal exEnvOk exState).trace = [.msg exFixed]
    ∧ delivered 1 (handleMessagesStep jsonMarshal exEnvOk exState).trace = [.msg exFixed]
    ∧ delivered 2 (handleMessagesStep jsonMarshal exEnvOk exState).trace = [.msg exFixed] := by
  have h := pipeline_history_entry_matches_delivery jsonMarshal exEnvOk exMsg [] exState rfl
  refine ⟨rfl, ?_, ?_, ?_, ?_, ?_⟩
  · rw [h.2.1]; rfl
  · rw [h.2.1]; rfl
  · rw [h.2.2.2.2 0]; rfl
  · rw [h.2.2.2.2 1]; rfl
  · rw [h.2.2.2.2 2]; rfl

/-- C3: with every registered connection's write succeeding, one pipeline step
writes the (possibly corrected) message exactly once to each registered
connection and to no other, and leaves the registry unchanged, whatever the
outcomes of the spell-checker call, the JSON marshal and the history append. -/
theorem pipeline_step_fanout_complete
    (marshal : Message → Except String GoString) (env : StepEnv)
    (msg : Message) (rest : List Message) (st : State)
    (hq : st.broadcast = msg :: rest) (hnd : st.clients.Nodup)
    (hw : ∀ c ∈ st.clients, env.writeOk c = true) :
    (handleMessagesStep marshal env st).clients = st.clients
    ∧ (∀ c ∈ st.clients,
        attempted c (handleMessagesStep marshal env st).trace
          = attempted c st.trace ++ [.msg (enrich env.check msg)]
        ∧ delivered c (handleMessagesStep marshal env st).trace
          = delivered c st.trace ++ [.msg (enrich env.check msg)])
    ∧ (∀ c, c ∉ st.clients →
        attempted c (handleMessagesStep marshal env st).trace = attempted c st.trace) := by
  have hstep := handleMessagesStep_cons marshal env msg rest st hq
  have hatt : ∀ c, attempted c (handleMessagesStep marshal env st).trace
      = attempted c st.trace
          ++ List.replicate (st.clients.count c) (.msg (enrich env.check msg)) := by
    intro c
    rw [hstep, sendToAll_trace]
    simp only [attempted_append, (pushEvents_no_write _ _ _ _).1, attempted_fanoutEvents,
      State.emit, List.append_nil]
    simp [attempted]
  refine ⟨?_, ?_, ?_⟩
  · rw [hstep, sendToAll_clients]
    exact List.filter_eq_self.2 hw
  · intro c hc
    refine ⟨?_, ?_⟩
    · rw [hatt c, List.count_eq_one_of_mem hnd hc]; rfl
    · rw [hstep, sendToAll_trace]
      simp only [delivered_append, (pushEvents_no_write _ _ _ _).2, delivered_fanoutEvents,
        State.emit, List.append_nil, hw c hc, if_true, List.count_eq_one_of_mem hnd hc]
      simp [delivered]
  · intro c hc
    rw [hatt c, List.count_eq_zero_of_not_mem hc]; simp

/-- Witness of C3: with the checker unreachable and the history append failing,
clients A, B and C are each written the submitted record once and stay registered. -/
theorem pipeline_step_fanout_complete_witness :
    exState.broadcast = exMsg :: [] ∧ exState.clients.Nodup
    ∧ (handleMessagesStep (fun _ => .error "marshal") exEnvDown exState).clients = [0, 1, 2]
    ∧ (handleMessagesStep (fun _ => .error "marshal") exEnvDown exState).history = []
    ∧ delivered 0 (handleMessagesStep (fun _ => .error "marshal") exEnvDown exState).trace
        = [.msg exMsg] := by
  have h := pipeline_step_fanout_complete (fun _ => .error "marshal") exEnvDown exMsg []
    exState rfl (by decide) (fun _ _ => rfl)
  refine ⟨rfl, by decide, h.1, rfl, ?_⟩
  rw [(h.2.1 0 (by decide)).2]; rfl

/-- C4: `sendToAll` attempts the write on every registered connection whatever
the outcome of the other writes; afterwards the registry holds exactly the
connections whose write succeeded, exactly the failed ones have been closed,
and a later `sendToAll` writes again to every connection that succeeded. -/
theorem sendToAll_isolates_write_failures
    (marshal : Message → Except String GoString) (env env2 : StepEnv)
    (msg msg2 : Message) (st : State) (hnd : st.clients.Nodup) :
    (sendToAll marshal env msg st).trace
        = st.trace ++ pushEvents marshal env.pushOk msg
            ++ fanoutEvents env.writeOk msg st.clients
    ∧ (∀ c ∈ st.clients,
        Event.write c (.msg msg) (env.writeOk c) ∈ fanoutEvents env.writeOk msg st.clients
        ∧ attempted c (sendToAll marshal env msg st).trace = attempted c st.trace ++ [.msg msg])
    ∧ (sendToAll marshal env msg st).clients = st.clients.filter env.writeOk
    ∧ (∀ c, c ∈ (sendToAll marshal env msg st).clients ↔ c ∈ st.clients ∧ env.writeOk c = true)
    ∧ (∀ c, Event.close c ∈ fanoutEvents env.writeOk msg st.clients
        ↔ c ∈ st.clients ∧ env.writeOk c = false)
    ∧ (∀ c ∈ st.clients, env.writeOk c = true →
        attempted c (sendToAll marshal env2 msg2 (sendToAll marshal env msg st)).trace
          = attempted c (sendToAll marshal env msg st).trace ++ [.msg msg2]) := by
  have hatt : ∀ (e : StepEnv) (m : Message) (s : State) (c : Conn), s.clients.Nodup →
      c ∈ s.clients →
      attempted c (sendToAll marshal e m s).trace = attempted c s.trace ++ [.msg m] := by
    intro e m s c hn hc
    rw [sendToAll_trace]
    simp only [attempted_append, (pushEvents_no_write _ _ _ _).1, attempted_fanoutEvents,
      List.append_nil, List.count_eq_one_of_mem hn hc]
    rfl
  refine ⟨sendToAll_trace _ _ _ _, ?_, sendToAll_clients _ _ _ _, ?_, ?_, ?_⟩
  · intro c hc
    exact ⟨write_mem_fanoutEvents _ _ _ _ hc, hatt env msg st c hnd hc⟩
  · intro c
    rw [sendToAll_clients, List.mem_filter]
  · intro c
    exact close_mem_fanoutEvents _ _ _ _
  · intro c hc hwc
    apply hatt
    · rw [sendToAll_clients]; exact hnd.filter _
    · rw [sendToAll_clients]; exact List.mem_filter.2 ⟨hc, hwc⟩

/-- Witness of C4: the write to B fails; A and C are still written, B is closed
and removed, and the next fan-out reaches A and C. -/
theorem sendToAll_isolates_write_failures_witness :
    exState.clients.Nodup
    ∧ (sendToAll jsonMarshal exEnvBFails exFixed exState).clients = [0, 2]
    ∧ delivered 2 (sendToAll jsonMarshal exEnvBFails exFixed exState).trace = [.msg exFixed]
    ∧ attempted 2 (sendToAll jsonMarshal exEnvOk exMsg
        (sendToAll jsonMarshal exEnvBFails exFixed exState)).trace
        = [.msg exFixed, .msg exMsg] := by
  have h := sendToAll_isolates_write_failures jsonMarshal exEnvBFails exEnvOk exFixed exMsg
    exState (by decide)
  refine ⟨by decide, ?_, rfl, ?_⟩
  · rw [h.2.2.1]; rfl
  · rw [h.2.2.2.2.2 2 (by decide) rfl, (h.2.1 2 (by decide)).2]; rfl

/-- C5 as stated fails: with the history append failing, the stable healthy
client A is written the message while no entry is appended, so the appended
entries do not deserialize to the sequence of messages written to A. -/
theorem history_append_failure_breaks_equality :
    exState.broadcast = [exMsg] ∧ exEnvDown.writeOk 0 = true
    ∧ 0 ∈ (handleMessages jsonMarshal [exEnvDown] exState).clients
    ∧ delivered 0 (handleMessages jsonMarshal [exEnvDown] exState).trace = [.msg exMsg]
    ∧ (handleMessages jsonMarshal [exEnvDown] exState).history = []
    ∧ (handleMessages jsonMarshal [exEnvDown] exState).history.map jsonUnmarshal
        ≠ [Except.ok exMsg] := by
  refine ⟨rfl, rfl, by decide, rfl, rfl, by decide⟩

/-- C5 (amended): for a run of the pipeline over the queued messages `msgs`, a
connection that is registered and whose writes all succeed stays registered and
is written exactly the messages handed to `sendToAll`, in queue order; the
entries appended to the history are, in the same order, the serializations of
those of these messages whose append succeeded, and of all of them when every
append succeeds (so that they deserialize to the delivered sequence under any
decoder inverting the serialization); per message the receive is followed by
the append, then the fan-out, then the next receive. -/
theorem pipeline_history_order
    (marshal : Message → Except String GoString) (enc : Message → GoString)
    (hm : ∀ m, marshal m = .ok (enc m)) (envs : List StepEnv)
    (msgs rest : List Message) (st : State) (c : Conn)
    (hq : st.broadcast = msgs ++ rest) (hlen : envs.length = msgs.length)
    (hnd : st.clients.Nodup) (hc : c ∈ st.clients)
    (hw : ∀ env ∈ envs, env.writeOk c = true) :
    c ∈ (handleMessages marshal envs st).clients
    ∧ delivered c (handleMessages marshal envs st).trace
        = delivered c st.trace ++ (runSent envs msgs).map Payload.msg
    ∧ (handleMessages marshal envs st).history = st.history ++ runPushed marshal envs msgs
    ∧ (runPushed marshal envs msgs).Sublist ((runSent envs msgs).map enc)
    ∧ ((∀ env ∈ envs, env.pushOk = true) →
        runPushed marshal envs msgs = (runSent envs msgs).map enc
        ∧ ∀ unmarshal : GoString → Except String Message,
            (∀ m ∈ runSent envs msgs, unmarshal (enc m) = .ok m) →
            (runPushed marshal envs msgs).map unmarshal = (runSent envs msgs).map Except.ok)
    ∧ (handleMessages marshal envs st).trace
        = st.trace ++ runEvents marshal envs msgs st.clients := by
  obtain ⟨h1, h2, _, h4⟩ := handleMessages_run marshal envs msgs rest st hq hlen
  refine ⟨?_, ?_, h2, runPushed_sublist marshal enc hm envs msgs, ?_, h1⟩
  · rw [h4]
    refine List.mem_filter.2 ⟨hc, ?_⟩
    rw [List.all_eq_true]
    intro env he
    exact hw env he
  · rw [h1, delivered_append, delivered_runEvents marshal envs msgs st.clients c hlen hnd hc hw]
  · intro hp
    have hall := runPushed_all_ok marshal enc hm envs msgs hp
    refine ⟨hall, ?_⟩
    intro unmarshal hinv
    rw [hall, List.map_map]
    apply List.map_congr_left
    intro m hmem
    exact hinv m hmem

/-- Witness of C5 (amended): three different records are drained in order; the
first is corrected and appended, the append of the second fails, the third is
appended with the checker unreachable. Client C, healthy throughout, is written
all three in queue order; the history holds the serializations of the first
and the third, in that order, a proper sublist of the serialized delivered
sequence; the trace shows receive, append, fan-out for each record in turn. -/
theorem pipeline_history_order_witness :
    exQueued.broadcast = [exMsg, exUnicode, exCoerced] ++ []
    ∧ [exEnvOk, exEnvDown, exEnvErr].length = [exMsg, exUnicode, exCoerced].length
    ∧ exQueued.clients.Nodup ∧ 2 ∈ exQueued.clients
    ∧ exEnvDown.pushOk = false
    ∧ 2 ∈ (handleMessages jsonMarshal [exEnvOk, exEnvDown, exEnvErr] exQueued).clients
    ∧ delivered 2 (handleMessages jsonMarshal [exEnvOk, exEnvDown, exEnvErr] exQueued).trace
        = [.msg exFixed, .msg exUnicode, .msg exCoerced]
    ∧ (handleMessages jsonMarshal [exEnvOk, exEnvDown, exEnvErr] exQueued).history
        = [encodeMessage exFixed, encodeMessage exCoerced]
    ∧ [encodeMessage exFixed, encodeMessage exCoerced].Sublist
        [encodeMessage exFixed, encodeMessage exUnicode, encodeMessage exCoerced]
    ∧ (handleMessages jsonMarshal [exEnvOk, exEnvDown, exEnvErr] exQueued).trace
        = [.recv exMsg, .rpush (encodeMessage exFixed) true,
            .write 0 (.msg exFixed) true, .write 1 (.msg exFixed) true,
            .write 2 (.msg exFixed) true,
           .recv exUnicode, .rpush (encodeMessage exUnicode) false,
            .write 0 (.msg exUnicode) true, .write 1 (.msg exUnicode) true,
            .write 2 (.msg exUnicode) true,
           .recv exCoerced, .rpush (encodeMessage exCoerced) true,
            .write 0 (.msg exCoerced) true, .write 1 (.msg exCoerced) true,
            .write 2 (.msg exCoerced) true] := by
  have h := pipeline_history_order jsonMarshal encodeMessage (fun _ => rfl)
    [exEnvOk, exEnvDown, exEnvErr] [exMsg, exUnicode, exCoerced] [] exQueued 2 rfl rfl
    (by decide) (by decide)
    (by
      intro env he
      simp only [List.mem_cons, List.mem_singleton, List.not_mem_nil, or_false] at he
      rcases he with rfl | rfl | rfl <;> rfl)
  refine ⟨rfl, rfl, by decide, by decide, rfl, h.1, ?_, ?_, ?_, ?_⟩
  · rw [h.2.1]; rfl
  · rw [h.2.2.1]; rfl
  · have hs := h.2.2.2.1
    exact hs
  · rw [h.2.2.2.2.2]; rfl

/-- C6: with the history list holding the messages `ms` in append order (every
entry decodes to its message), a handler whose upgrade and history read succeed
sends as catch-up payload, oldest first, `ms` without its first `M - 50`
messages: exactly the last 50 when `M > 50`, exactly all of `ms` when `M ≤ 50`. -/
theorem handleConnections_bounded_replay
    (unmarshal : GoString → Except String Message) (env : ConnEnv) (st : State)
    (ws : Conn) (ms : List Message)
    (hup : env.upgrade = .ok ws) (hr : env.lrangeOk = true)
    (hh : st.history.map unmarshal = ms.map Except.ok) :
    (handleConnections unmarshal env st).1 ≠ .fatal
    ∧ attempted ws (handleConnections unmarshal env st).2.trace
        = attempted ws st.trace ++ [.msgs (ms.drop (ms.length - 50))]
    ∧ (env.catchupOk = true → delivered ws (handleConnections unmarshal env st).2.trace
        = delivered ws st.trace ++ [.msgs (ms.drop (ms.length - 50))])
    ∧ (50 < ms.length → (ms.drop (ms.length - 50)).length = 50
        ∧ ∃ older, older.length = ms.length - 50 ∧ ms = older ++ ms.drop (ms.length - 50))
    ∧ (ms.length ≤ 50 → ms.drop (ms.length - 50) = ms) := by
  have hlen : st.history.length = ms.length := by
    have := congrArg List.length hh
    simpa using this
  have hparse : parseMsgs unmarshal (lrange (register ws st).history (-50) (-1))
      = .ok (ms.drop (ms.length - 50)) := by
    rw [parseMsgs_ok_iff, lrange_last50]
    show (List.drop (st.history.length - 50) st.history).map unmarshal = _
    rw [List.map_drop, List.map_drop, hh, hlen]
  have hrun : handleConnections unmarshal env st
      = readLoop ws env.reads
          (sendPrevMsgs env.catchupOk ws (ms.drop (ms.length - 50)) (register ws st)) := by
    unfold handleConnections
    rw [hup]
    simp only [hr, if_true, hparse]
  refine ⟨?_, ?_, ?_, ?_, ?_⟩
  · rw [hrun]; exact readLoop_exit _ _ _
  · rw [hrun, readLoop_attempted, sendPrevMsgs_attempted]; rfl
  · intro hok
    rw [hrun, readLoop_delivered, hok]
    simp [sendPrevMsgs, State.emit, delivered_append, delivered, register]
  · intro hM
    refine ⟨by simp; omega, ms.take (ms.length - 50), by simp, ?_⟩
    exact (List.take_append_drop _ _).symm
  · intro hM
    have : ms.length - 50 = 0 := by omega
    rw [this]; rfl

/-- Witness of C6: two stored records, both replayed, oldest first. -/
theorem handleConnections_bounded_replay_witness :
    exJoin.upgrade = .ok 3 ∧ exJoin.lrangeOk = true
    ∧ exStored.history.map jsonUnmarshal = [exMsg, exFixed].map Except.ok
    ∧ attempted 3 (handleConnections jsonUnmarshal exJoin exStored).2.trace
        = [.msgs [exMsg, exFixed]] := by
  have h := handleConnections_bounded_replay jsonUnmarshal exJoin exStored 3 [exMsg, exFixed]
    rfl rfl (by rfl)
  exact ⟨rfl, rfl, by rfl, by rw [h.2.1]; rfl⟩

/-- C8 as stated fails: a failed websocket upgrade, and likewise an undecodable
history entry, takes the `log.Fatal` branch of `handleConnections`, which
terminates the process. -/
theorem upgrade_failure_is_fatal :
    (handleConnections jsonUnmarshal exUpgradeFails exIdle).1 = .fatal
    ∧ (∃ e, jsonUnmarshal (ascii "oops") = .error e)
    ∧ (handleConnections jsonUnmarshal exJoin exCorrupt).1 = .fatal := by
  refine ⟨rfl, ⟨_, rfl⟩, rfl⟩

/-- C8 (amended): `handleConnections` terminates the process exactly when the
upgrade fails or, the history read having succeeded, one of the entries read
does not decode; on upgrade failure nothing is registered (the state is
untouched); in every case no connection other than the handler's own is added,
removed, closed or written to, and the handler's exit after a history read
failure, a catch-up write failure or an inbound read failure is never fatal;
`main` terminates the process exactly when the spell-checker dial, the Redis
ping or `ListenAndServe` fails. -/
theorem handleConnections_fatal_iff
    (unmarshal : GoString → Except String Message) (env : ConnEnv) (st : State) :
    ((handleConnections unmarshal env st).1 = .fatal ↔
        (∃ e, env.upgrade = .error e)
        ∨ (env.lrangeOk = true
            ∧ ∃ entry ∈ lrange st.history (-50) (-1), ∃ e, unmarshal entry = .error e))
    ∧ (∀ e, env.upgrade = .error e → handleConnections unmarshal env st = (.fatal, st))
    ∧ (∀ ws, env.upgrade = .ok ws → ∀ c, c ≠ ws →
        (c ∈ (handleConnections unmarshal env st).2.clients ↔ c ∈ st.clients)
        ∧ (Event.close c ∈ (handleConnections unmarshal env st).2.trace
            ↔ Event.close c ∈ st.trace)
        ∧ attempted c (handleConnections unmarshal env st).2.trace = attempted c st.trace)
    ∧ (∀ dial ping listen, main dial ping listen = .fatal ↔
        (∃ e, dial = .error e) ∨ (∃ e, ping = .error e) ∨ (∃ e, listen = some e)) := by
  refine ⟨?_, ?_, ?_, ?_⟩
  · unfold handleConnections
    cases hup : env.upgrade with
    | error e => simp
    | ok ws =>
      cases hr : env.lrangeOk with
      | false => simpa using readLoop_exit ws env.reads (register ws st)
      | true =>
        have hhist : (register ws st).history = st.history := rfl
        cases hp : parseMsgs unmarshal (lrange (register ws st).history (-50) (-1)) with
        | error e =>
          have := (parseMsgs_error_iff unmarshal _).1 ⟨e, hp⟩
          rw [hhist] at this
          simp [this, hp]
        | ok parsed =>
          have hno : ¬ ∃ entry ∈ lrange st.history (-50) (-1), ∃ e,
              unmarshal entry = .error e := by
            intro h
            obtain ⟨e, he⟩ := (parseMsgs_error_iff unmarshal _).2 h
            rw [← hhist, hp] at he
            cases he
          simp only [if_true, reduceCtorEq, exists_false, true_and, false_or, hp]
          constructor
          · intro h; exact absurd h (readLoop_exit _ _ _)
          · intro h; exact absurd h hno
  · intro e he
    unfold handleConnections
    rw [he]
  · intro ws hup c hc
    unfold handleConnections
    rw [hup]
    cases hr : env.lrangeOk with
    | false =>
      simp only [Bool.false_eq_true, if_false]
      refine ⟨?_, ?_, ?_⟩
      · rw [(readLoop_others ws c hc _ _).1]; exact register_others ws c hc st
      · rw [(readLoop_others ws c hc _ _).2]; rfl
      · rw [readLoop_attempted]; rfl
    | true =>
      simp only [if_true]
      cases hp : parseMsgs unmarshal (lrange (register ws st).history (-50) (-1)) with
      | error e => simp only [hp]; exact ⟨register_others ws c hc st, Iff.rfl, rfl⟩
      | ok parsed =>
        simp only [hp]
        refine ⟨?_, ?_, ?_⟩
        · rw [(readLoop_others ws c hc _ _).1, (sendPrevMsgs_others _ ws c hc _ _).1]
          exact register_others ws c hc st
        · rw [(readLoop_others ws c hc _ _).2, (sendPrevMsgs_others _ ws c hc _ _).2.1]; rfl
        · rw [readLoop_attempted, (sendPrevMsgs_others _ ws c hc _ _).2.2]; rfl
  · intro dial ping listen
    cases dial <;> cases ping <;> cases listen <;>
      simp [main, connectToSpellChecker, connectToRedis]

/-- C9 as stated fails: with an empty history and a successful read the handler
still writes a catch-up payload, the empty sequence, to the new connection. -/
theorem empty_history_still_sends_catchup :
    exIdle.history = [] ∧ exJoin.lrangeOk = true
    ∧ attempted 3 exIdle.trace = []
    ∧ attempted 3 (handleConnections jsonUnmarshal exJoin exIdle).2.trace = [.msgs []] := by
  refine ⟨rfl, rfl, rfl, rfl⟩

/-- C9 (amended): after registering a new connection `handleConnections` writes
a catch-up payload to it if and only if the history read succeeds and every
entry read decodes; the payload is the decoded sequence, the empty sequence
when the history is empty. When the read fails nothing is written to the
connection before the read loop, the connection is registered and the read loop
serves it: every message read is handed to the broadcast channel and the
connection stays registered while reads succeed. -/
theorem handleConnections_catchup
    (unmarshal : GoString → Except String Message) (env : ConnEnv) (st : State)
    (ws : Conn) (hup : env.upgrade = .ok ws) :
    ((∃ p, attempted ws (handleConnections unmarshal env st).2.trace
          = attempted ws st.trace ++ [p])
        ↔ env.lrangeOk = true
          ∧ ∃ parsed, parseMsgs unmarshal (lrange st.history (-50) (-1)) = .ok parsed)
    ∧ (env.lrangeOk = true →
        ∀ parsed, parseMsgs unmarshal (lrange st.history (-50) (-1)) = .ok parsed →
          attempted ws (handleConnections unmarshal env st).2.trace
            = attempted ws st.trace ++ [.msgs parsed])
    ∧ (env.lrangeOk = true → st.history = [] →
        attempted ws (handleConnections unmarshal env st).2.trace
          = attempted ws st.trace ++ [.msgs []])
    ∧ (env.lrangeOk = false →
        handleConnections unmarshal env st = readLoop ws env.reads (register ws st)
        ∧ attempted ws (handleConnections unmarshal env st).2.trace = attempted ws st.trace
        ∧ ws ∈ (register ws st).clients
        ∧ ∀ msgs, env.reads = msgs.map Except.ok →
            handleConnections unmarshal env st
              = (.blocked, { register ws st with broadcast := st.broadcast ++ msgs })) := by
  have hhist : (register ws st).history = st.history := rfl
  have hok : env.lrangeOk = true → ∀ parsed,
      parseMsgs unmarshal (lrange st.history (-50) (-1)) = .ok parsed →
      attempted ws (handleConnections unmarshal env st).2.trace
        = attempted ws st.trace ++ [.msgs parsed] := by
    intro hr parsed hp
    unfold handleConnections
    rw [hup]
    simp only [hr, if_true, hhist, hp]
    rw [readLoop_attempted, sendPrevMsgs_attempted]; rfl
  have hfail : env.lrangeOk = false →
      handleConnections unmarshal env st = readLoop ws env.reads (register ws st) := by
    intro hr
    unfold handleConnections
    rw [hup]
    simp only [hr, Bool.false_eq_true, if_false]
  refine ⟨?_, hok, ?_, ?_⟩
  · constructor
    · rintro ⟨p, hp⟩
      cases hr : env.lrangeOk with
      | false =>
        rw [hfail hr, readLoop_attempted] at hp
        have := congrArg List.length hp
        simp [register] at this
      | true =>
        refine ⟨rfl, ?_⟩
        cases hparse : parseMsgs unmarshal (lrange st.history (-50) (-1)) with
        | ok parsed => exact ⟨parsed, rfl⟩
        | error e =>
          exfalso
          have hrun : handleConnections unmarshal env st = (.fatal, register ws st) := by
            unfold handleConnections
            rw [hup]
            simp only [hr, if_true, hhist, hparse]
          rw [hrun] at hp
          have := congrArg List.length hp
          simp [register] at this
    · rintro ⟨hr, parsed, hp⟩
      exact ⟨_, hok hr parsed hp⟩
  · intro hr hempty
    apply hok hr
    rw [hempty]
    rfl
  · intro hr
    refine ⟨hfail hr, ?_, ?_, ?_⟩
    · rw [hfail hr, readLoop_attempted]; rfl
    · unfold register
      by_cases h : ws ∈ st.clients <;> simp [h]
    · intro msgs hreads
      rw [hfail hr, hreads, readLoop_all_ok]
      rfl

/-- Witness of C9 (amended): a client joins while the history read fails and
sends one message; nothing is written to it, it is registered, and its message
is queued for the pipeline. -/
theorem handleConnections_catchup_witness :
    exJoinNoRead.upgrade = .ok 3
    ∧ attempted 3 (handleConnections jsonUnmarshal exJoinNoRead exStored).2.trace = []
    ∧ handleConnections jsonUnmarshal exJoinNoRead exStored
        = (.blocked, { exStored with clients := [0, 1, 2, 3], broadcast := [exMsg] }) := by
  have h := handleConnections_catchup jsonUnmarshal exJoinNoRead exStored 3 rfl
  refine ⟨rfl, ?_, ?_⟩
  · rw [(h.2.2.2 rfl).2.1]; rfl
  · rw [(h.2.2.2 rfl).2.2.2 [exMsg] rfl]; rfl

theorem getLast_lrange_append {α : Type} (h : List α) (x : α) :
    (lrange (h ++ [x]) (-50) (-1)).getLast? = some x := by
  rw [lrange_last50]
  have hk : (h ++ [x]).length - 50 ≤ h.length := by
    simp only [List.length_append, List.length_cons, List.length_nil]; omega
  rw [List.drop_append_of_le_length hk]
  simp

/-- C7 as stated fails: a `Message` whose `Email` is the byte 0xFF is serialized
by `sendToAll` with the escape for U+FFFD, so the entry appended to the history
is read back by `handleConnections` as a different record (`Email` = U+FFFD);
the serialization of two different records coincides, so no decoder could
restore both. -/
theorem invalid_utf8_not_restored :
    (sendToAll jsonMarshal exEnvOk exBadMsg exIdle).history
        = [ascii "\x7b\"email\":\"\\ufffd\",\"username\":\"\",\"message\":\"\"\x7d"]
    ∧ attempted 3 (handleConnections jsonUnmarshal exJoin
        (sendToAll jsonMarshal exEnvOk exBadMsg exIdle)).2.trace = [.msgs [exCoerced]]
    ∧ jsonUnmarshal (encodeMessage exBadMsg) = .ok exCoerced
    ∧ jsonUnmarshal (encodeMessage exBadMsg) ≠ .ok exBadMsg
    ∧ encodeMessage exBadMsg = encodeMessage exBadMsg2 ∧ exBadMsg ≠ exBadMsg2 := by
  refine ⟨by rfl, by rfl, by rfl, by decide, by decide, by decide⟩

/-- C7 (amended): for every `Message` whose `Email`, `Username` and `Message`
are well-formed UTF-8 (empty strings and non-ASCII text included),
`json.Marshal` succeeds, `sendToAll` with a successful append puts the
serialization at the end of the history list, the last entry of the range
read back by `handleConnections` is that serialization, and `json.Unmarshal`
of it succeeds with a `Message` equal to the original. -/
theorem json_roundtrip_valid_utf8 (m : Message) (env : StepEnv) (st : State)
    (he : ValidString m.Email) (hu : ValidString m.Username) (hm : ValidString m.Message)
    (hp : env.pushOk = true) :
    jsonMarshal m = .ok (encodeMessage m)
    ∧ (sendToAll jsonMarshal env m st).history = st.history ++ [encodeMessage m]
    ∧ (lrange (sendToAll jsonMarshal env m st).history (-50) (-1)).getLast?
        = some (encodeMessage m)
    ∧ jsonUnmarshal (encodeMessage m) = .ok m
    ∧ ((lrange (sendToAll jsonMarshal env m st).history (-50) (-1)).map jsonUnmarshal).getLast?
        = some (.ok m) := by
  have hh : (sendToAll jsonMarshal env m st).history = st.history ++ [encodeMessage m] := by
    rw [sendToAll_history]
    simp [pushed, jsonMarshal, hp]
  have hr := jsonUnmarshal_encodeMessage m he hu hm
  refine ⟨rfl, hh, ?_, hr, ?_⟩
  · rw [hh]; exact getLast_lrange_append _ _
  · rw [List.getLast?_map, hh, getLast_lrange_append, Option.map_some', hr]

/-- Witness of C7 (amended): a record with an empty field, non-ASCII runes of
two, three and four bytes, quotes, a backslash, a control byte and `<`. -/
theorem json_roundtrip_valid_utf8_witness :
    ValidString exUnicode.Email ∧ ValidString exUnicode.Username
    ∧ ValidString exUnicode.Message ∧ exEnvOk.pushOk = true
    ∧ jsonUnmarshal (encodeMessage exUnicode) = .ok exUnicode
    ∧ encodeMessage exUnicode
        = ascii "\x7b\"email\":\"\",\"username\":\"" ++ [0xC3, 0xA9]
          ++ ascii "\\u2028\",\"message\":\"\\\"\\\\\\u0001\\u003c" ++ [0xF0, 0x9F, 0x98, 0x80]
          ++ ascii "\"\x7d" := by
  have h := json_roundtrip_valid_utf8 exUnicode exEnvOk exStored (by decide) (by decide)
    (by decide) rfl
  exact ⟨by decide, by decide, by decide, rfl, h.2.2.2.1, by rfl⟩

end GoFrontEnd
